import Mathlib

/-!
# Verification of the wireguard-go packet-processing core

Shallow embedding of the repository's `device` package (allowed-IPs radix
trie, noise handshake state updates, keypair rotation, nonce assignment,
receive classification, under-load check, token-bucket rate limiter and
the IPC get serialisation), with theorems checking the specification's
claims against it.

Conventions:
* machine integers (`uint32`, `uint64`, `int64`) are modelled as `Nat`/`Int`,
  with explicit `% 2^w` reductions where the code can overflow;
* byte buffers (`[]byte`) are `List Nat`, each element a byte value;
* `time.Time` values are nanosecond counts (`Nat`), matching `UnixNano`;
* fallible operations return `Option`.
-/

namespace WireGuardGo

/-! ## Byte-buffer primitives (`encoding/binary`, little endian) -/

/-- `binary.LittleEndian.PutUint32`: the four bytes written for value `v`. -/
def putUint32 (v : Nat) : List Nat :=
  [v % 256, v / 256 % 256, v / 65536 % 256, v / 16777216 % 256]

/-- `binary.LittleEndian.Uint32` read at offset `i` of buffer `b`. -/
def readUint32 (b : List Nat) (i : Nat) : Nat :=
  b.getD i 0 + 256 * b.getD (i+1) 0 + 65536 * b.getD (i+2) 0
    + 16777216 * b.getD (i+3) 0

/-! ## Protocol constants

Wire-format sizes are from `device/noise-protocol.go` (in `src/`). -/

def MessageInitiationType : Nat := 1
def MessageResponseType : Nat := 2
def MessageCookieReplyType : Nat := 3
def MessageTransportType : Nat := 4

def MessageInitiationSize : Nat := 148
def MessageResponseSize : Nat := 92
def MessageCookieReplySize : Nat := 64
def MessageTransportHeaderSize : Nat := 16
def MessageTransportSize : Nat := MessageTransportHeaderSize + 16
def MinMessageSize : Nat := MessageTransportSize

/-- Modelled from the spec: `device/constants.go` is not in `src/`; the
spec's constants table gives `REJECT_AFTER_MESSAGES = 2^64 − 2^13 − 1`. -/
def RejectAfterMessages : Nat := 2^64 - 2^13 - 1

/-- Modelled from the spec: `REKEY_AFTER_MESSAGES = 2^60`
(`device/constants.go` is not in `src/`). -/
def RekeyAfterMessages : Nat := 2^60

/-- Modelled from the spec: `REJECT_AFTER_TIME = 180 s`, in nanoseconds
(`device/constants.go` is not in `src/`). -/
def RejectAfterTime : Nat := 180 * 1000000000

/-- Modelled from the spec: `HANDSHAKE_INITIATION_RATE = 50 ms`, in
nanoseconds (`device/constants.go` is not in `src/`). -/
def HandshakeInitationRate : Nat := 50 * 1000000

/-- Modelled from the spec: `UNDER_LOAD_AFTER_TIME = 1 s`, in nanoseconds
(`device/constants.go` is not in `src/`). -/
def UnderLoadAfterTime : Nat := 1000000000

/-! ## Wire messages and their (un)marshalling (`device/noise-protocol.go`)

The fixed-size Go arrays become length-constrained byte lists; a message
is well formed when its fields have the sizes the Go struct types force. -/

structure MessageInitiation where
  msgType : Nat
  sender : Nat
  ephemeral : List Nat
  static : List Nat
  timestamp : List Nat
  mac1 : List Nat
  mac2 : List Nat
  deriving Repr, DecidableEq

/-- Field sizes forced by the Go struct `MessageInitiation`:
`uint32`, `uint32`, 32-byte key, 48-byte sealed static, 28-byte sealed
timestamp, two 16-byte MACs. -/
def MessageInitiation.WF (m : MessageInitiation) : Prop :=
  m.msgType < 2^32 ∧ m.sender < 2^32 ∧ m.ephemeral.length = 32 ∧
  m.static.length = 48 ∧ m.timestamp.length = 28 ∧
  m.mac1.length = 16 ∧ m.mac2.length = 16

instance (m : MessageInitiation) : Decidable m.WF := by
  unfold MessageInitiation.WF; infer_instance

/-- `MessageInitiation.marshal`: fails unless the destination buffer has
exactly `MessageInitiationSize` bytes, else overwrites all of it. -/
def MessageInitiation.marshal (m : MessageInitiation) (b : List Nat) :
    Option (List Nat) :=
  if b.length ≠ MessageInitiationSize then none
  else some (putUint32 m.msgType ++ putUint32 m.sender ++ m.ephemeral ++
    m.static ++ m.timestamp ++ m.mac1 ++ m.mac2)

/-- `MessageInitiation.unmarshal`: fails unless the source buffer has
exactly `MessageInitiationSize` bytes. -/
def MessageInitiation.unmarshal (b : List Nat) : Option MessageInitiation :=
  if b.length ≠ MessageInitiationSize then none
  else some
    { msgType := readUint32 b 0
      sender := readUint32 b 4
      ephemeral := ((b.drop 8).take 32)
      static := ((b.drop 40).take 48)
      timestamp := ((b.drop 88).take 28)
      mac1 := ((b.drop 116).take 16)
      mac2 := ((b.drop 132).take 16) }

structure MessageResponse where
  msgType : Nat
  sender : Nat
  receiver : Nat
  ephemeral : List Nat
  empty : List Nat
  mac1 : List Nat
  mac2 : List Nat
  deriving Repr, DecidableEq

def MessageResponse.WF (m : MessageResponse) : Prop :=
  m.msgType < 2^32 ∧ m.sender < 2^32 ∧ m.receiver < 2^32 ∧
  m.ephemeral.length = 32 ∧ m.empty.length = 16 ∧
  m.mac1.length = 16 ∧ m.mac2.length = 16

instance (m : MessageResponse) : Decidable m.WF := by
  unfold MessageResponse.WF; infer_instance

def MessageResponse.marshal (m : MessageResponse) (b : List Nat) :
    Option (List Nat) :=
  if b.length ≠ MessageResponseSize then none
  else some (putUint32 m.msgType ++ putUint32 m.sender ++
    putUint32 m.receiver ++ m.ephemeral ++ m.empty ++ m.mac1 ++ m.mac2)

def MessageResponse.unmarshal (b : List Nat) : Option MessageResponse :=
  if b.length ≠ MessageResponseSize then none
  else some
    { msgType := readUint32 b 0
      sender := readUint32 b 4
      receiver := readUint32 b 8
      ephemeral := ((b.drop 12).take 32)
      empty := ((b.drop 44).take 16)
      mac1 := ((b.drop 60).take 16)
      mac2 := ((b.drop 76).take 16) }

structure MessageCookieReply where
  msgType : Nat
  receiver : Nat
  nonce : List Nat
  cookie : List Nat
  deriving Repr, DecidableEq

def MessageCookieReply.WF (m : MessageCookieReply) : Prop :=
  m.msgType < 2^32 ∧ m.receiver < 2^32 ∧ m.nonce.length = 24 ∧
  m.cookie.length = 32

instance (m : MessageCookieReply) : Decidable m.WF := by
  unfold MessageCookieReply.WF; infer_instance

def MessageCookieReply.marshal (m : MessageCookieReply) (b : List Nat) :
    Option (List Nat) :=
  if b.length ≠ MessageCookieReplySize then none
  else some (putUint32 m.msgType ++ putUint32 m.receiver ++ m.nonce ++
    m.cookie)

def MessageCookieReply.unmarshal (b : List Nat) : Option MessageCookieReply :=
  if b.length ≠ MessageCookieReplySize then none
  else some
    { msgType := readUint32 b 0
      receiver := readUint32 b 4
      nonce := ((b.drop 8).take 24)
      cookie := ((b.drop 32).take 32) }

/-! ## Allowed-IPs radix trie (`device/allowedips.go`)

IP addresses and node bit strings (`[]byte` of 4 or 16 bytes) are modelled
as their big-endian bit sequences (`List Bool`, MSB of the first byte
first).  The Go code addresses single bits through
`bitAtByte = cidr/8`, `bitAtShift = 7 - cidr%8`, i.e. bit number `cidr`
of that sequence, so `choose`, `commonBits` and `maskSelf` translate to
positional operations on the bit list:

* `(node.choose ip)` = `ip.getD node.cidr false`;
* `commonBits` = length of the longest common bit prefix (the Go code
  computes it as leading zeros of the XOR of the big-endian words);
* `maskSelf` zeroes every bit from position `cidr` on.

The pointer-mutating Go functions become persistent-tree recursions whose
per-node case analysis mirrors the Go control flow (see each comment). -/

/-- One byte as its 8 bits, most significant first. -/
def byteToBits (b : Nat) : List Bool :=
  [b / 128 % 2 = 1, b / 64 % 2 = 1, b / 32 % 2 = 1, b / 16 % 2 = 1,
   b / 8 % 2 = 1, b / 4 % 2 = 1, b / 2 % 2 = 1, b % 2 = 1]

/-- A byte slice as its big-endian bit sequence. -/
def bytesToBits (bs : List Nat) : List Bool := bs.flatMap byteToBits

/-- A trie node (`trieEntry`): owning peer (none for glue nodes), masked
bit string, prefix length, and the two children (`child[0]`, `child[1]`).
Parent pointers only serve the Go code's in-place surgery and have no
functional content. -/
inductive Trie where
  | empty : Trie
  | node (peer : Option Nat) (bits : List Bool) (cidr : Nat)
      (l r : Trie) : Trie
  deriving Repr, DecidableEq

/-- `commonBits`: the number of leading bits on which the two strings
agree. -/
def commonBits : List Bool → List Bool → Nat
  | a :: as, b :: bs => if a = b then commonBits as bs + 1 else 0
  | _, _ => 0

/-- `maskSelf`: zero every bit from position `cidr` on, keeping the
length. -/
def maskBits (ip : List Bool) (cidr : Nat) : List Bool :=
  ip.take cidr ++ List.replicate (ip.length - cidr) false

/-- `parentIndirection.insert`.  The loop of `nodePlacement` (descend
while `node.cidr <= cidr && commonBits(node.bits, ip) >= node.cidr`,
actioning an exact match) becomes the first `if`; a `nil` child reached
by the descent is the appended-leaf case (inserting into `empty`); a node
failing the descent test is the `down` node, handled by the
become-parent (`newNode.cidr == cidr` after clamping by `common`) and
split (glue node at `common`) cases. -/
def trieInsert : Trie → List Bool → Nat → Nat → Trie
  | .empty, ip, cidr, peer =>
      .node (some peer) (maskBits ip cidr) cidr .empty .empty
  | .node p bits c l r, ip, cidr, peer =>
    if c ≤ cidr ∧ commonBits bits ip ≥ c then
      if c = cidr then
        -- exact match: overwrite the peer binding
        .node (some peer) bits c l r
      else if ip.getD c false then
        .node p bits c l (trieInsert r ip cidr peer)
      else
        .node p bits c (trieInsert l ip cidr peer) r
    else
      -- this node is `down`
      let common := commonBits bits ip
      if cidr ≤ common then
        -- the new node becomes the parent of `down`, which hangs on the
        -- side `newNode.choose(down.bits)` = bit `cidr` of `bits`
        if bits.getD cidr false then
          .node (some peer) (maskBits ip cidr) cidr .empty
            (.node p bits c l r)
        else
          .node (some peer) (maskBits ip cidr) cidr
            (.node p bits c l r) .empty
      else
        -- split: glue node with CIDR `common`; `down` hangs on the side
        -- of bit `common` of `bits`, the new node on the other side
        -- (their bits differ at position `common`)
        if bits.getD common false then
          .node none (maskBits ip common) common
            (.node (some peer) (maskBits ip cidr) cidr .empty .empty)
            (.node p bits c l r)
        else
          .node none (maskBits ip common) common
            (.node p bits c l r)
            (.node (some peer) (maskBits ip cidr) cidr .empty .empty)

/-- `AllowedIPs.Remove` combined with `trieEntry.remove`.  The walk is
`nodePlacement`; at the exact node with the matching peer the binding is
cleared and the node unlinked when it has at most one child.  The
returned flag reports that the removed node itself had no children and
vanished, in which case (and only then, one level up, exactly as the Go
code reaches the removed node's parent through `parentBit`) a peerless
parent is collapsed into its other child. -/
def trieRemove : Trie → List Bool → Nat → Nat → Trie × Bool
  | .empty, _, _, _ => (.empty, false)
  | .node p bits c l r, ip, cidr, peer =>
    if c ≤ cidr ∧ commonBits bits ip ≥ c then
      if c = cidr then
        if p = some peer then
          match l, r with
          | .empty, .empty => (.empty, true)
          | .empty, child => (child, false)
          | child, .empty => (child, false)
          | cl, cr => (.node none bits c cl cr, false)
        else (.node p bits c l r, false)
      else if ip.getD c false then
        let res := trieRemove r ip cidr peer
        if res.2 ∧ p = none then (l, false)
        else (.node p bits c l res.1, false)
      else
        let res := trieRemove l ip cidr peer
        if res.2 ∧ p = none then (r, false)
        else (.node p bits c res.1 r, false)
    else (.node p bits c l r, false)

/-- `trieEntry.lookup` with its `found` accumulator.  The Go break
condition `node.bitAtByte == size` is `cidr/8 =` the byte length of
`ip`. -/
def trieLookupAcc : Trie → List Bool → Option Nat → Option Nat
  | .empty, _, found => found
  | .node p bits c l r, ip, found =>
    if commonBits bits ip ≥ c then
      let found := if p.isSome then p else found
      if c / 8 = ip.length / 8 then found
      else if ip.getD c false then trieLookupAcc r ip found
      else trieLookupAcc l ip found
    else found

/-- The two-root Allowed-IPs table. -/
structure AllowedIPs where
  ipv4 : Trie
  ipv6 : Trie
  deriving Repr, DecidableEq

/-- `AllowedIPs.Insert`: dispatch on the address family (16-byte = 128
bits checked first, as `prefix.Addr().Is6()` is). -/
def AllowedIPs.Insert (t : AllowedIPs) (ip : List Bool) (cidr : Nat)
    (peer : Nat) : AllowedIPs :=
  if ip.length = 128 then { t with ipv6 := trieInsert t.ipv6 ip cidr peer }
  else if ip.length = 32 then
    { t with ipv4 := trieInsert t.ipv4 ip cidr peer }
  else t

/-- `AllowedIPs.Remove`: family dispatch as in `Insert`. -/
def AllowedIPs.Remove (t : AllowedIPs) (ip : List Bool) (cidr : Nat)
    (peer : Nat) : AllowedIPs :=
  if ip.length = 128 then
    { t with ipv6 := (trieRemove t.ipv6 ip cidr peer).1 }
  else if ip.length = 32 then
    { t with ipv4 := (trieRemove t.ipv4 ip cidr peer).1 }
  else t

/-- `AllowedIPs.Lookup`: dispatch on the address size (the Go `default`
branch panics; other sizes never reach it). -/
def AllowedIPs.Lookup (t : AllowedIPs) (ip : List Bool) : Option Nat :=
  if ip.length = 128 then trieLookupAcc t.ipv6 ip none
  else if ip.length = 32 then trieLookupAcc t.ipv4 ip none
  else none

/-! ### Spec-side model for the trie refinement (C1)

Written from the spec's words ("`lookup(X)` equals the peer of the longest
prefix P such that P contains X and P is currently present"), for
comparison with the code model above. -/

/-- Spec-side state: the currently present (prefix ↦ peer) bindings, an
association list keyed by the prefix bit string `ip.take cidr`. -/
def AbsMap : Type := List (List Bool × Nat)

/-- First binding for a key. -/
def absFind (m : AbsMap) (key : List Bool) : Option Nat :=
  match m with
  | [] => none
  | (k, p) :: rest => if k = key then some p else absFind rest key

/-- Spec-side `insert`: add or overwrite the binding. -/
def absInsert (m : AbsMap) (key : List Bool) (peer : Nat) : AbsMap :=
  (key, peer) :: m

/-- Spec-side `remove`: drop the binding only if the exact prefix is
currently bound to this peer. -/
def absRemove (m : AbsMap) (key : List Bool) (peer : Nat) : AbsMap :=
  if absFind m key = some peer then
    m.filter (fun e => decide (e.1 ≠ key))
  else m

/-- Longest present prefix of `ip` of length at most `n`, scanning
downwards, for an arbitrary presence function. -/
def longestMatchBy (f : List Bool → Option Nat) (ip : List Bool) :
    Nat → Option Nat
  | 0 => f (ip.take 0)
  | n+1 =>
    match f (ip.take (n+1)) with
    | some p => some p
    | none => longestMatchBy f ip n

/-- Spec-side lookup: the peer of the longest currently present prefix
containing `ip`, or none. -/
def specLongestMatch (m : AbsMap) (ip : List Bool) : Option Nat :=
  longestMatchBy (absFind m) ip ip.length

/-- Fold of an optional better match over a fallback, the `found`
accumulator pattern of `lookup`. -/
def orFound (a b : Option Nat) : Option Nat :=
  match a with
  | some p => some p
  | none => b

/-- A sequence of control-plane trie operations. -/
inductive AllowedIPsOp where
  | ins (ip : List Bool) (cidr : Nat) (peer : Nat) : AllowedIPsOp
  | rem (ip : List Bool) (cidr : Nat) (peer : Nat) : AllowedIPsOp
  deriving Repr, DecidableEq

def AllowedIPsOp.ipOf : AllowedIPsOp → List Bool
  | .ins ip _ _ => ip
  | .rem ip _ _ => ip

def AllowedIPsOp.cidrOf : AllowedIPsOp → Nat
  | .ins _ c _ => c
  | .rem _ c _ => c

/-- Apply operations to the code-side table. -/
def applyOps (t : AllowedIPs) : List AllowedIPsOp → AllowedIPs
  | [] => t
  | .ins ip cidr peer :: rest => applyOps (t.Insert ip cidr peer) rest
  | .rem ip cidr peer :: rest => applyOps (t.Remove ip cidr peer) rest

/-- Apply operations to one spec-side map, ignoring those of the other
address family. -/
def applyAbs (L : Nat) (m : AbsMap) : List AllowedIPsOp → AbsMap
  | [] => m
  | .ins ip cidr peer :: rest =>
      applyAbs L (if ip.length = L then absInsert m (ip.take cidr) peer
        else m) rest
  | .rem ip cidr peer :: rest =>
      applyAbs L (if ip.length = L then absRemove m (ip.take cidr) peer
        else m) rest

/-- The trie well-formedness invariant, relative to the bit-string context
`ctx` forced by the path from the root: bit strings have the address
length `L`, prefix lengths are bounded by `L`, bits are masked beyond
`cidr`, the node's prefix extends `ctx`, and each child's context appends
its branch bit to the node's prefix. -/
def WFc (L : Nat) : List Bool → Trie → Prop
  | _, .empty => True
  | ctx, .node _ bits c l r =>
      bits.length = L ∧ c ≤ L ∧ ctx.length ≤ c ∧ bits.take ctx.length = ctx ∧
      (∀ i, c ≤ i → bits.getD i false = false) ∧
      WFc L (bits.take c ++ [false]) l ∧ WFc L (bits.take c ++ [true]) r

/-- Exact-prefix retrieval from the trie: the peer stored at the node
whose prefix is `key`, if any.  This is the abstraction function for the
refinement proof. -/
def trieFind : Trie → List Bool → Option Nat
  | .empty, _ => none
  | .node p bits c l r, key =>
    if key.length = c ∧ key = bits.take c then p
    else if c < key.length ∧ bits.take c = key.take c then
      if key.getD c false then trieFind r key else trieFind l key
    else none

/-- A concrete control-plane operation sequence exercising insert,
overlapping longer insert, and removal on IPv4 prefixes. -/
def sampleOps : List AllowedIPsOp :=
  [.ins (bytesToBits [10, 0, 0, 0]) 8 7,
   .ins (bytesToBits [10, 1, 0, 0]) 16 9,
   .ins (bytesToBits [0, 0, 0, 0]) 0 3,
   .rem (bytesToBits [10, 0, 0, 0]) 8 7]

/-! ## Handshake state and keypair rotation (`device/noise-protocol.go`) -/

inductive HandshakeState where
  | zeroed | initiationCreated | initiationConsumed
  | responseCreated | responseConsumed
  deriving Repr, DecidableEq

/-- The per-peer handshake fields touched by `ConsumeMessageInitiation`.
TAI64N timestamps are ordered 12-byte strings; `Timestamp.After` is their
lexicographic order, modelled as `Nat` with `>`.  Wall-clock values
(`time.Time`) are nanosecond counts (`Int`). -/
structure Handshake where
  state : HandshakeState
  hash : List Nat
  chainKey : List Nat
  remoteIndex : Nat
  remoteEphemeral : List Nat
  lastTimestamp : Nat
  lastInitiationConsumption : Int
  deriving Repr, DecidableEq

/-- The replay/flood gate and state update of
`Device.ConsumeMessageInitiation`, from the point where the message's
timestamp has been decrypted and the peer found (the cryptographic
prelude either aborts with `nil` — leaving the handshake untouched — or
reaches this point).  `hash` and `chainKey` are the transcript values the
prelude computed; `ts` the decrypted timestamp; `now` the current time
(`time.Since x = now - x`).  Returns whether a peer is returned (success)
and the resulting handshake. -/
def consumeMessageInitiation (h : Handshake) (msgSender : Nat)
    (msgEphemeral : List Nat) (hash chainKey : List Nat) (ts : Nat)
    (now : Int) : Bool × Handshake :=
  let replay := ¬ ts > h.lastTimestamp
  let flood := now - h.lastInitiationConsumption ≤
    (HandshakeInitationRate : Int)
  if replay then (false, h)
  else if flood then (false, h)
  else
    (true,
      { state := .initiationConsumed
        hash := hash
        chainKey := chainKey
        remoteIndex := msgSender
        remoteEphemeral := msgEphemeral
        lastTimestamp := if ts > h.lastTimestamp then ts else h.lastTimestamp
        lastInitiationConsumption :=
          if now > h.lastInitiationConsumption then now
          else h.lastInitiationConsumption })

/-- The three keypair slots of a peer (`Keypairs`), with keypairs
abstracted to identifiers of type `K`. -/
structure KeypairSlots (K : Type) where
  current : Option K
  previous : Option K
  next : Option K
  deriving Repr, DecidableEq

/-- The slot-rotation tail of `Peer.BeginSymmetricSession`: install the
freshly derived keypair `k`.  Returns the new slots and the keypairs
passed to `device.DeleteKeypair`, in call order (`DeleteKeypair(nil)` is
a no-op). -/
def beginSymmetricSessionRotation (kp : KeypairSlots K) (isInitiator : Bool)
    (k : K) : KeypairSlots K × List K :=
  if isInitiator then
    match kp.next with
    | some n =>
        ({ current := some k, previous := some n, next := none },
          kp.current.toList ++ kp.previous.toList)
    | none =>
        ({ current := some k, previous := kp.current, next := none },
          kp.previous.toList)
  else
    ({ current := kp.current, previous := none, next := some k },
      kp.next.toList ++ kp.previous.toList)

/-- `Peer.BeginSymmetricSession` at the slot-rotation level: the handshake
state selects the role (initiator iff `responseConsumed`, responder iff
`responseCreated`, error otherwise). -/
def beginSymmetricSession (hs : HandshakeState) (kp : KeypairSlots K)
    (k : K) : Option (KeypairSlots K × List K) :=
  if hs = .responseConsumed then some (beginSymmetricSessionRotation kp true k)
  else if hs = .responseCreated then
    some (beginSymmetricSessionRotation kp false k)
  else none

/-! ## Outbound nonce assignment (`device/send.go`) -/

/-- Result of the per-container loop of `Peer.SendStagedPackets`:
`published` are the elements kept in the container (handed to the
per-peer outbound queue and the shared encryption queue) with their
assigned nonces, in order; `ooo` are the elements moved to the
out-of-order container (re-staged via `StagePackets`, never published)
with the nonces they were assigned; `sendNonce` is the final counter. -/
structure SendStagedResult where
  published : List (Nat × Nat)
  ooo : List (Nat × Nat)
  sendNonce : Nat
  deriving Repr, DecidableEq

/-- The nonce-assignment loop of `Peer.SendStagedPackets` over one staged
container: `elem.nonce = keypair.sendNonce.Add(1) - 1`; a nonce at or
above `RejectAfterMessages` stores `RejectAfterMessages` back into the
counter and moves the element to the out-of-order container; otherwise
the element stays (compacted in place) with that nonce. -/
def sendStagedLoop (elems : List Nat) (sendNonce : Nat) : SendStagedResult :=
  match elems with
  | [] => ⟨[], [], sendNonce⟩
  | e :: rest =>
    let nonce := sendNonce
    if nonce ≥ RejectAfterMessages then
      let r := sendStagedLoop rest RejectAfterMessages
      ⟨r.published, (e, nonce) :: r.ooo, r.sendNonce⟩
    else
      let r := sendStagedLoop rest (sendNonce + 1)
      ⟨(e, nonce) :: r.published, r.ooo, r.sendNonce⟩

/-! ## Inbound classification (`device/device_commented.go`,
`RoutineReceiveIncoming`) -/

/-- Where the classifier sends a datagram. -/
inductive RecvVerdict where
  | drop : RecvVerdict
  | toDecryption (peer : Nat) : RecvVerdict
  | toHandshake : RecvVerdict
  deriving Repr, DecidableEq

/-- Per-datagram classification of `Device.RoutineReceiveIncoming`.
`lookupKeypair` is the index-table lookup (`device/index.go` is not in
`src/`): receiver index ↦ (peer, keypair creation time in ns), `none`
when the entry has no keypair.  A transport datagram joins a per-peer
container handed to the decryption queue; handshake-typed datagrams of
the right exact size go to the handshake queue. -/
def receiveClassify (packet : List Nat)
    (lookupKeypair : Nat → Option (Nat × Int)) (now : Int) : RecvVerdict :=
  if packet.length < MinMessageSize then .drop
  else
    let msgType := readUint32 packet 0
    if msgType = MessageTransportType then
      if packet.length < MessageTransportSize then .drop
      else
        let receiver := readUint32 packet 4
        match lookupKeypair receiver with
        | none => .drop
        | some (peer, created) =>
          if created + (RejectAfterTime : Int) < now then .drop
          else .toDecryption peer
    else if msgType = MessageInitiationType then
      if packet.length = MessageInitiationSize then .toHandshake else .drop
    else if msgType = MessageResponseType then
      if packet.length = MessageResponseSize then .toHandshake else .drop
    else if msgType = MessageCookieReplyType then
      if packet.length = MessageCookieReplySize then .toHandshake else .drop
    else .drop

/-! ## Sequential receiver source check (`device/device_commented.go`,
`RoutineSequentialReceiver`) -/

/-- `binary.BigEndian.Uint16` at offset `i`. -/
def readUint16BE (b : List Nat) (i : Nat) : Nat :=
  256 * b.getD i 0 + b.getD (i+1) 0

/-- `ipv4.HeaderLen` (x/net). -/
def ipv4HeaderLen : Nat := 20
/-- `ipv6.HeaderLen` (x/net). -/
def ipv6HeaderLen : Nat := 40
def IPv4offsetTotalLength : Nat := 2
def IPv4offsetSrc : Nat := 12
def IPv6offsetPayloadLength : Nat := 4
def IPv6offsetSrc : Nat := 8

/-- Body of the per-element receiver decision of
`Peer.RoutineSequentialReceiver` for a successfully decrypted packet
`pkt`, given the replay-filter verdict for the element's counter, the
Allowed-IPs table and the peer owning the keypair: returns the (clipped)
inner packet appended to the tunnel-write batch, or `none` when the
element is dropped.  The IPv6 declared length is `uint16` arithmetic,
hence the `% 65536`.  `src` is resliced from `elem.packet` after the
clip `elem.packet = elem.packet[:length]`; a Go reslice may extend past
the slice's length up to its capacity, and the pre-clip header-length
guard puts offsets 8..24 (v6) and 12..16 (v4) inside the original
packet, so the checked source is always the unclipped packet's source
field — even when the wrapped IPv6 `uint16` total clips below 24. -/
def sequentialReceiveBody (table : AllowedIPs) (peer : Nat)
    (pkt : List Nat) (replayOk : Bool) : Option (List Nat) :=
  if ¬ replayOk then none
  else if pkt.length = 0 then none
  else if pkt.getD 0 0 / 16 = 4 then
    if pkt.length < ipv4HeaderLen then none
    else if readUint16BE pkt IPv4offsetTotalLength > pkt.length ∨
        readUint16BE pkt IPv4offsetTotalLength < ipv4HeaderLen then none
    else if table.Lookup (bytesToBits ((pkt.drop IPv4offsetSrc).take 4))
        ≠ some peer then none
    else some (pkt.take (readUint16BE pkt IPv4offsetTotalLength))
  else if pkt.getD 0 0 / 16 = 6 then
    if pkt.length < ipv6HeaderLen then none
    else if (readUint16BE pkt IPv6offsetPayloadLength + ipv6HeaderLen) %
        65536 > pkt.length then none
    else if table.Lookup (bytesToBits ((pkt.drop IPv6offsetSrc).take 16))
        ≠ some peer then none
    else some (pkt.take ((readUint16BE pkt IPv6offsetPayloadLength +
        ipv6HeaderLen) % 65536))
  else none

/-- Per-element decision of `Peer.RoutineSequentialReceiver`: a `none`
packet (failed decryption) is skipped; otherwise `sequentialReceiveBody`
runs the replay-filter, keepalive, header and source checks. -/
def sequentialReceiveElem (table : AllowedIPs) (peer : Nat)
    (packet : Option (List Nat)) (replayOk : Bool) : Option (List Nat) :=
  match packet with
  | none => none
  | some pkt => sequentialReceiveBody table peer pkt replayOk

/-- The inner source address of a parsed inner IP packet (offset 12,
4 bytes for IPv4; offset 8, 16 bytes for IPv6), used to state C2. -/
def innerSource (pkt : List Nat) : Option (List Nat) :=
  if pkt.getD 0 0 / 16 = 4 then some ((pkt.drop IPv4offsetSrc).take 4)
  else if pkt.getD 0 0 / 16 = 6 then some ((pkt.drop IPv6offsetSrc).take 16)
  else none

/-! ## Under-load check (`device/device.go`, `Device.IsUnderLoad`) -/

/-- The latched deadline `device.rate.underLoadUntil` (UnixNano). -/
structure UnderLoadState where
  underLoadUntil : Int
  deriving Repr, DecidableEq

/-- `Device.IsUnderLoad`: under load when the handshake queue holds at
least `QueueHandshakeSize/8` elements; seeing that refreshes the latch to
`now + UnderLoadAfterTime`; otherwise under load exactly when the latch
lies in the future.  `queueLen` is `len(device.queue.handshake.c)` and
`queueCap` the queue capacity `QueueHandshakeSize` (a tunable, kept as a
parameter). -/
def IsUnderLoad (queueLen queueCap : Nat) (now : Int)
    (st : UnderLoadState) : Bool × UnderLoadState :=
  let underLoad := queueLen ≥ queueCap / 8
  if underLoad then
    (true, { underLoadUntil := now + (UnderLoadAfterTime : Int) })
  else (decide (st.underLoadUntil > now), st)

/-! ## Token-bucket rate limiter (`ratelimiter` package, in `src/`) -/

def packetsPerSecond : Int := 20
def packetsBurstable : Int := 5
def packetCost : Int := 1000000000 / packetsPerSecond
def maxTokens : Int := packetCost * packetsBurstable

/-- One per-source-address bucket (`RatelimiterEntry`). -/
structure RatelimiterEntry where
  lastTime : Int
  tokens : Int
  deriving Repr, DecidableEq

/-- `Ratelimiter.Allow` restricted to a single source address: `entry` is
the table slot for that address (`none` when absent).  A fresh entry
starts at `maxTokens - packetCost` and is allowed; otherwise tokens
refill by the elapsed nanoseconds, clamp at `maxTokens`, and the packet
passes only when `tokens > packetCost` ( strictly). -/
def ratelimiterAllow (entry : Option RatelimiterEntry) (now : Int) :
    Bool × RatelimiterEntry :=
  match entry with
  | none => (true, ⟨now, maxTokens - packetCost⟩)
  | some e =>
    let tokens := e.tokens + (now - e.lastTime)
    let tokens := if tokens > maxTokens then maxTokens else tokens
    if tokens > packetCost then (true, ⟨now, tokens - packetCost⟩)
    else (false, ⟨now, tokens⟩)

/-- Run `Allow` for one address over a list of call times; returns the
number of allowed packets and the final entry. -/
def ratelimiterRun (entry : Option RatelimiterEntry) :
    List Int → Nat × Option RatelimiterEntry
  | [] => (0, entry)
  | t :: ts =>
    let r := ratelimiterAllow entry t
    let rest := ratelimiterRun (some r.2) ts
    ((if r.1 then 1 else 0) + rest.1, rest.2)

/-! ## IPC `get=1` serialisation (`device/device.go`,
`Device.IpcGetOperation`) -/

/-- Lower-case hex of a byte string, as `keyf` prints 32-byte keys. -/
def hexOfBytes (bs : List Nat) : String :=
  String.join (bs.map (fun b =>
    let hexDigit := fun (n : Nat) =>
      String.singleton (Char.ofNat (if n < 10 then 48 + n else 87 + n))
    hexDigit (b / 16 % 16) ++ hexDigit (b % 16)))

/-- Peer state read by the `get` serialiser.  `endpointStr` is
`endpoint.val.DstToString()` when an endpoint is set; `allowedIPs` the
prefix strings enumerated from the peer's own trie-entry list by
`EntriesForPeer`. -/
structure PeerGetState where
  remoteStatic : List Nat
  presharedKey : List Nat
  endpointStr : Option String
  lastHandshakeNano : Nat
  txBytes : Nat
  rxBytes : Nat
  persistentKeepaliveInterval : Nat
  allowedIPs : List String
  deriving Repr, DecidableEq

/-- Device state read by the `get` serialiser; `peers` in the iteration
order of the peer map. -/
structure DeviceGetState where
  privateKey : List Nat
  port : Nat
  fwmark : Nat
  peers : List PeerGetState
  deriving Repr, DecidableEq

/-- `device.staticIdentity.privateKey.IsZero()`. -/
def isZeroKey (k : List Nat) : Bool := k.all (· = 0)

/-- The `key=value` lines `Device.IpcGetOperation` writes, in order (the
trailing `errno=` line is appended by the UAPI layer, not here). -/
def ipcGetLines (d : DeviceGetState) : List (String × String) :=
  (if ¬ isZeroKey d.privateKey then
    [("private_key", hexOfBytes d.privateKey)] else []) ++
  (if d.port ≠ 0 then [("listen_port", toString d.port)] else []) ++
  (if d.fwmark ≠ 0 then [("fwmark", toString d.fwmark)] else []) ++
  [("hello_from_coder", "Success")] ++
  (d.peers.flatMap fun p =>
    [("public_key", hexOfBytes p.remoteStatic),
     ("preshared_key", hexOfBytes p.presharedKey),
     ("protocol_version", "1")] ++
    (match p.endpointStr with
     | some e => [("endpoint", e)]
     | none => []) ++
    [("last_handshake_time_sec", toString (p.lastHandshakeNano / 1000000000)),
     ("last_handshake_time_nsec", toString (p.lastHandshakeNano % 1000000000)),
     ("tx_bytes", toString p.txBytes),
     ("rx_bytes", toString p.rxBytes),
     ("persistent_keepalive_interval",
       toString p.persistentKeepaliveInterval)] ++
    p.allowedIPs.map (fun pr => ("allowed_ip", pr)))

/-- Spec-side: the device/peer keys the spec's get-response sentence
lists. -/
def specGetResponseKeys : List String :=
  ["private_key", "listen_port", "fwmark", "public_key", "preshared_key",
   "protocol_version", "endpoint", "last_handshake_time_sec",
   "last_handshake_time_nsec", "tx_bytes", "rx_bytes",
   "persistent_keepalive_interval", "allowed_ip"]

/-- Spec-side: the expected key sequence of the get response, written
from the spec's listing amended by the fork's extra
`hello_from_coder` line. -/
def specGetKeySeq (d : DeviceGetState) : List String :=
  (if ¬ isZeroKey d.privateKey then ["private_key"] else []) ++
  (if d.port ≠ 0 then ["listen_port"] else []) ++
  (if d.fwmark ≠ 0 then ["fwmark"] else []) ++
  ["hello_from_coder"] ++
  (d.peers.flatMap fun p =>
    ["public_key", "preshared_key", "protocol_version"] ++
    (if p.endpointStr.isSome then ["endpoint"] else []) ++
    ["last_handshake_time_sec", "last_handshake_time_nsec", "tx_bytes",
     "rx_bytes", "persistent_keepalive_interval"] ++
    p.allowedIPs.map (fun _ => "allowed_ip"))

/-! ### Round-trip lemmas -/

theorem putUint32_length (v : Nat) : (putUint32 v).length = 4 := rfl

theorem readUint32_putUint32_append (v : Nat) (l : List Nat) (h : v < 2^32) :
    readUint32 (putUint32 v ++ l) 0 = v := by
  have e : readUint32 (putUint32 v ++ l) 0
      = v % 256 + 256 * (v / 256 % 256) + 65536 * (v / 65536 % 256)
        + 16777216 * (v / 16777216 % 256) := rfl
  rw [e]; omega

/-- Reading at an offset past a prefix of that length. -/
theorem readUint32_append_left (a b : List Nat) (i : Nat)
    (h : a.length = i) : readUint32 (a ++ b) i = readUint32 b 0 := by
  subst h
  have g : ∀ k, (a ++ b).getD (a.length + k) 0 = b.getD k 0 := by
    intro k
    rw [List.getD_append_right _ _ _ _ (Nat.le_add_right _ _)]
    congr 1
    omega
  have e0 := g 0
  rw [Nat.add_zero] at e0
  unfold readUint32
  rw [e0, g 1, g 2, g 3]

theorem drop_append_of_length (a b : List Nat) (n : Nat)
    (h : a.length = n) : (a ++ b).drop n = b := by
  subst h; exact List.drop_left a b

theorem take_append_of_length (a b : List Nat) (n : Nat)
    (h : a.length = n) : (a ++ b).take n = a := by
  subst h; exact List.take_left a b

theorem segment_extract (pre seg post : List Nat) (n k : Nat)
    (hn : pre.length = n) (hk : seg.length = k) :
    ((pre ++ (seg ++ post)).drop n).take k = seg := by
  rw [drop_append_of_length pre _ n hn, take_append_of_length seg post k hk]

theorem segment_extract_last (pre seg : List Nat) (n k : Nat)
    (hn : pre.length = n) (hk : seg.length = k) :
    ((pre ++ seg).drop n).take k = seg := by
  rw [drop_append_of_length pre _ n hn]
  exact List.take_of_length_le (le_of_eq hk)

theorem MessageInitiation.unmarshal_marshal_init (m : MessageInitiation)
    (b out : List Nat) (hWF : m.WF) (hm : m.marshal b = some out) :
    MessageInitiation.unmarshal out = some m := by
  obtain ⟨hT, hS, hE, hSt, hTs, hM1, hM2⟩ := hWF
  unfold MessageInitiation.marshal at hm
  split at hm
  · exact absurd hm (by simp)
  · rename_i hb
    have hout : out = putUint32 m.msgType ++ (putUint32 m.sender ++
        (m.ephemeral ++ (m.static ++ (m.timestamp ++ (m.mac1 ++ m.mac2))))) := by
      have := hm
      simp only [Option.some.injEq] at this
      simp [← this, List.append_assoc]
    have houtlen : out.length = 148 := by
      simp [hout, putUint32, hE, hSt, hTs, hM1, hM2]
    have hMsgType : readUint32 out 0 = m.msgType := by
      rw [hout]; exact readUint32_putUint32_append _ _ hT
    have hSender : readUint32 out 4 = m.sender := by
      rw [hout, readUint32_append_left (putUint32 m.msgType) _ 4 rfl]
      exact readUint32_putUint32_append _ _ hS
    have hEph : (out.drop 8).take 32 = m.ephemeral := by
      rw [hout, show putUint32 m.msgType ++ (putUint32 m.sender ++
          (m.ephemeral ++ (m.static ++ (m.timestamp ++ (m.mac1 ++ m.mac2)))))
        = (putUint32 m.msgType ++ putUint32 m.sender) ++
          (m.ephemeral ++ (m.static ++ (m.timestamp ++ (m.mac1 ++ m.mac2))))
        from by simp [List.append_assoc]]
      exact segment_extract _ _ _ _ _ (by simp [putUint32]) hE
    have hStatic : (out.drop 40).take 48 = m.static := by
      rw [hout, show putUint32 m.msgType ++ (putUint32 m.sender ++
          (m.ephemeral ++ (m.static ++ (m.timestamp ++ (m.mac1 ++ m.mac2)))))
        = (putUint32 m.msgType ++ putUint32 m.sender ++ m.ephemeral) ++
          (m.static ++ (m.timestamp ++ (m.mac1 ++ m.mac2)))
        from by simp [List.append_assoc]]
      exact segment_extract _ _ _ _ _ (by simp [putUint32, hE]) hSt
    have hTstamp : (out.drop 88).take 28 = m.timestamp := by
      rw [hout, show putUint32 m.msgType ++ (putUint32 m.sender ++
          (m.ephemeral ++ (m.static ++ (m.timestamp ++ (m.mac1 ++ m.mac2)))))
        = (putUint32 m.msgType ++ putUint32 m.sender ++ m.ephemeral ++ m.static)
          ++ (m.timestamp ++ (m.mac1 ++ m.mac2))
        from by simp [List.append_assoc]]
      exact segment_extract _ _ _ _ _ (by simp [putUint32, hE, hSt]) hTs
    have hMac1 : (out.drop 116).take 16 = m.mac1 := by
      rw [hout, show putUint32 m.msgType ++ (putUint32 m.sender ++
          (m.ephemeral ++ (m.static ++ (m.timestamp ++ (m.mac1 ++ m.mac2)))))
        = (putUint32 m.msgType ++ putUint32 m.sender ++ m.ephemeral ++ m.static
          ++ m.timestamp) ++ (m.mac1 ++ m.mac2)
        from by simp [List.append_assoc]]
      exact segment_extract _ _ _ _ _ (by simp [putUint32, hE, hSt, hTs]) hM1
    have hMac2 : (out.drop 132).take 16 = m.mac2 := by
      rw [hout, show putUint32 m.msgType ++ (putUint32 m.sender ++
          (m.ephemeral ++ (m.static ++ (m.timestamp ++ (m.mac1 ++ m.mac2)))))
        = (putUint32 m.msgType ++ putUint32 m.sender ++ m.ephemeral ++ m.static
          ++ m.timestamp ++ m.mac1) ++ m.mac2
        from by simp [List.append_assoc]]
      exact segment_extract_last _ _ _ _
        (by simp [putUint32, hE, hSt, hTs, hM1]) hM2
    unfold MessageInitiation.unmarshal
    rw [if_neg (by simp [houtlen, MessageInitiationSize])]
    simp only [Option.some.injEq]
    cases m
    simp_all [MessageInitiationSize]

theorem MessageResponse.unmarshal_marshal_resp (m : MessageResponse)
    (b out : List Nat) (hWF : m.WF) (hm : m.marshal b = some out) :
    MessageResponse.unmarshal out = some m := by
  obtain ⟨hT, hS, hR, hE, hEm, hM1, hM2⟩ := hWF
  unfold MessageResponse.marshal at hm
  split at hm
  · exact absurd hm (by simp)
  · rename_i hb
    have hout : out = putUint32 m.msgType ++ (putUint32 m.sender ++
        (putUint32 m.receiver ++ (m.ephemeral ++ (m.empty ++
        (m.mac1 ++ m.mac2))))) := by
      have := hm
      simp only [Option.some.injEq] at this
      simp [← this, List.append_assoc]
    have houtlen : out.length = 92 := by
      simp [hout, putUint32, hE, hEm, hM1, hM2]
    have hMsgType : readUint32 out 0 = m.msgType := by
      rw [hout]; exact readUint32_putUint32_append _ _ hT
    have hSender : readUint32 out 4 = m.sender := by
      rw [hout, readUint32_append_left (putUint32 m.msgType) _ 4 rfl]
      exact readUint32_putUint32_append _ _ hS
    have hRecv : readUint32 out 8 = m.receiver := by
      rw [hout, show putUint32 m.msgType ++ (putUint32 m.sender ++
          (putUint32 m.receiver ++ (m.ephemeral ++ (m.empty ++
          (m.mac1 ++ m.mac2)))))
        = (putUint32 m.msgType ++ putUint32 m.sender) ++
          (putUint32 m.receiver ++ (m.ephemeral ++ (m.empty ++
          (m.mac1 ++ m.mac2))))
        from by simp [List.append_assoc]]
      rw [readUint32_append_left _ _ 8 (by simp [putUint32])]
      exact readUint32_putUint32_append _ _ hR
    have hEph : (out.drop 12).take 32 = m.ephemeral := by
      rw [hout, show putUint32 m.msgType ++ (putUint32 m.sender ++
          (putUint32 m.receiver ++ (m.ephemeral ++ (m.empty ++
          (m.mac1 ++ m.mac2)))))
        = (putUint32 m.msgType ++ putUint32 m.sender ++ putUint32 m.receiver)
          ++ (m.ephemeral ++ (m.empty ++ (m.mac1 ++ m.mac2)))
        from by simp [List.append_assoc]]
      exact segment_extract _ _ _ _ _ (by simp [putUint32]) hE
    have hEmpty : (out.drop 44).take 16 = m.empty := by
      rw [hout, show putUint32 m.msgType ++ (putUint32 m.sender ++
          (putUint32 m.receiver ++ (m.ephemeral ++ (m.empty ++
          (m.mac1 ++ m.mac2)))))
        = (putUint32 m.msgType ++ putUint32 m.sender ++ putUint32 m.receiver
          ++ m.ephemeral) ++ (m.empty ++ (m.mac1 ++ m.mac2))
        from by simp [List.append_assoc]]
      exact segment_extract _ _ _ _ _ (by simp [putUint32, hE]) hEm
    have hMac1 : (out.drop 60).take 16 = m.mac1 := by
      rw [hout, show putUint32 m.msgType ++ (putUint32 m.sender ++
          (putUint32 m.receiver ++ (m.ephemeral ++ (m.empty ++
          (m.mac1 ++ m.mac2)))))
        = (putUint32 m.msgType ++ putUint32 m.sender ++ putUint32 m.receiver
          ++ m.ephemeral ++ m.empty) ++ (m.mac1 ++ m.mac2)
        from by simp [List.append_assoc]]
      exact segment_extract _ _ _ _ _ (by simp [putUint32, hE, hEm]) hM1
    have hMac2 : (out.drop 76).take 16 = m.mac2 := by
      rw [hout, show putUint32 m.msgType ++ (putUint32 m.sender ++
          (putUint32 m.receiver ++ (m.ephemeral ++ (m.empty ++
          (m.mac1 ++ m.mac2)))))
        = (putUint32 m.msgType ++ putUint32 m.sender ++ putUint32 m.receiver
          ++ m.ephemeral ++ m.empty ++ m.mac1) ++ m.mac2
        from by simp [List.append_assoc]]
      exact segment_extract_last _ _ _ _
        (by simp [putUint32, hE, hEm, hM1]) hM2
    unfold MessageResponse.unmarshal
    rw [if_neg (by simp [houtlen, MessageResponseSize])]
    simp only [Option.some.injEq]
    cases m
    simp_all [MessageResponseSize]

theorem MessageCookieReply.unmarshal_marshal_cookie (m : MessageCookieReply)
    (b out : List Nat) (hWF : m.WF) (hm : m.marshal b = some out) :
    MessageCookieReply.unmarshal out = some m := by
  obtain ⟨hT, hR, hN, hC⟩ := hWF
  unfold MessageCookieReply.marshal at hm
  split at hm
  · exact absurd hm (by simp)
  · rename_i hb
    have hout : out = putUint32 m.msgType ++ (putUint32 m.receiver ++
        (m.nonce ++ m.cookie)) := by
      have := hm
      simp only [Option.some.injEq] at this
      simp [← this, List.append_assoc]
    have houtlen : out.length = 64 := by
      simp [hout, putUint32, hN, hC]
    have hMsgType : readUint32 out 0 = m.msgType := by
      rw [hout]; exact readUint32_putUint32_append _ _ hT
    have hRecv : readUint32 out 4 = m.receiver := by
      rw [hout, readUint32_append_left (putUint32 m.msgType) _ 4 rfl]
      exact readUint32_putUint32_append _ _ hR
    have hNonce : (out.drop 8).take 24 = m.nonce := by
      rw [hout, show putUint32 m.msgType ++ (putUint32 m.receiver ++
          (m.nonce ++ m.cookie))
        = (putUint32 m.msgType ++ putUint32 m.receiver) ++
          (m.nonce ++ m.cookie)
        from by simp [List.append_assoc]]
      exact segment_extract _ _ _ _ _ (by simp [putUint32]) hN
    have hCookie : (out.drop 32).take 32 = m.cookie := by
      rw [hout, show putUint32 m.msgType ++ (putUint32 m.receiver ++
          (m.nonce ++ m.cookie))
        = (putUint32 m.msgType ++ putUint32 m.receiver ++ m.nonce) ++ m.cookie
        from by simp [List.append_assoc]]
      exact segment_extract_last _ _ _ _ (by simp [putUint32, hN]) hC
    unfold MessageCookieReply.unmarshal
    rw [if_neg (by simp [houtlen, MessageCookieReplySize])]
    simp only [Option.some.injEq]
    cases m
    simp_all [MessageCookieReplySize]

/-- C10: for each of the three fixed-size wire messages (handshake
initiation, 148 bytes; handshake response, 92 bytes; cookie reply,
64 bytes), unmarshal is a left inverse of marshal — marshalling a
well-formed message value into a buffer of exactly the message's fixed
size and unmarshalling the produced bytes yields the original message —
and marshal and unmarshal fail exactly when the buffer length differs
from that fixed size. -/
theorem marshal_unmarshal_left_inverse
    (mi : MessageInitiation) (mr : MessageResponse) (mc : MessageCookieReply)
    (b : List Nat) (hi : mi.WF) (hr : mr.WF) (hc : mc.WF) :
    (∀ out, mi.marshal b = some out →
      MessageInitiation.unmarshal out = some mi) ∧
    (∀ out, mr.marshal b = some out →
      MessageResponse.unmarshal out = some mr) ∧
    (∀ out, mc.marshal b = some out →
      MessageCookieReply.unmarshal out = some mc) ∧
    ((mi.marshal b).isNone ↔ b.length ≠ MessageInitiationSize) ∧
    ((mr.marshal b).isNone ↔ b.length ≠ MessageResponseSize) ∧
    ((mc.marshal b).isNone ↔ b.length ≠ MessageCookieReplySize) ∧
    ((MessageInitiation.unmarshal b).isNone ↔
      b.length ≠ MessageInitiationSize) ∧
    ((MessageResponse.unmarshal b).isNone ↔ b.length ≠ MessageResponseSize) ∧
    ((MessageCookieReply.unmarshal b).isNone ↔
      b.length ≠ MessageCookieReplySize) := by
  refine ⟨fun out h => mi.unmarshal_marshal_init b out hi h,
    fun out h => mr.unmarshal_marshal_resp b out hr h,
    fun out h => mc.unmarshal_marshal_cookie b out hc h, ?_, ?_, ?_, ?_, ?_, ?_⟩ <;>
    · simp only [MessageInitiation.marshal, MessageResponse.marshal,
        MessageCookieReply.marshal, MessageInitiation.unmarshal,
        MessageResponse.unmarshal, MessageCookieReply.unmarshal]
      split <;> simp_all

/-- Witness for `marshal_unmarshal_left_inverse` at concrete messages and a
buffer of 148 zero bytes. -/
theorem marshal_unmarshal_left_inverse_witness :
    (MessageInitiation.WF ⟨1, 77, List.replicate 32 5, List.replicate 48 6,
        List.replicate 28 7, List.replicate 16 8, List.replicate 16 9⟩) ∧
    (MessageResponse.WF ⟨2, 77, 88, List.replicate 32 5, List.replicate 16 6,
        List.replicate 16 8, List.replicate 16 9⟩) ∧
    (MessageCookieReply.WF ⟨3, 88, List.replicate 24 5,
        List.replicate 32 6⟩) ∧
    ((MessageInitiation.unmarshal (List.replicate 148 0)).isNone ↔
        (List.replicate 148 (0:Nat)).length ≠ MessageInitiationSize) :=
  have h := marshal_unmarshal_left_inverse
    ⟨1, 77, List.replicate 32 5, List.replicate 48 6, List.replicate 28 7,
      List.replicate 16 8, List.replicate 16 9⟩
    ⟨2, 77, 88, List.replicate 32 5, List.replicate 16 6,
      List.replicate 16 8, List.replicate 16 9⟩
    ⟨3, 88, List.replicate 24 5, List.replicate 32 6⟩
    (List.replicate 148 0) (by decide) (by decide) (by decide)
  ⟨by decide, by decide, by decide, h.2.2.2.2.2.2.1⟩

/-! ### C7: under-load check -/

/-- C7 counterexample: with handshake queue capacity 1024 and occupancy
exactly 128 — equal to one eighth of the capacity, hence not *exceeding*
it — and a cold latch, `IsUnderLoad` nevertheless returns true: the code
tests `>= QueueHandshakeSize/8`, not `>`. -/
theorem isUnderLoad_exceeds_counterexample :
    (IsUnderLoad 128 1024 1000000000000 ⟨0⟩).1 = true ∧
    ¬ 128 > 1024 / 8 ∧
    ¬ ((⟨0⟩ : UnderLoadState).underLoadUntil > (1000000000000 : Int)) := by
  refine ⟨by decide, by decide, by decide⟩

/-- C7 (amended): `IsUnderLoad` returns true exactly when the handshake
queue occupancy is at least ⌊capacity/8⌋, or when the occupancy condition
was last observed (by a call) less than `UNDER_LOAD_AFTER_TIME = 1 s`
before `now`; observing the occupancy condition refreshes the latch to
`now + 1 s`, and a later call with low occupancy reads the latch. -/
theorem isUnderLoad_latch (queueLen queueCap queueLen' : Nat)
    (now now' : Int) (st : UnderLoadState) :
    ((IsUnderLoad queueLen queueCap now st).1 =
      (decide (queueLen ≥ queueCap / 8) ||
        decide (st.underLoadUntil > now))) ∧
    ((IsUnderLoad queueLen queueCap now st).2.underLoadUntil =
      if queueLen ≥ queueCap / 8 then now + (UnderLoadAfterTime : Int)
      else st.underLoadUntil) ∧
    (queueLen ≥ queueCap / 8 → queueLen' < queueCap / 8 →
      (IsUnderLoad queueLen' queueCap now'
        (IsUnderLoad queueLen queueCap now st).2).1 =
        decide (now' - now < (UnderLoadAfterTime : Int))) := by
  unfold IsUnderLoad
  by_cases h : queueLen ≥ queueCap / 8
  · refine ⟨by simp [h], by simp [h], fun _ h2 => ?_⟩
    simp only [if_pos h, if_neg (by omega : ¬ queueLen' ≥ queueCap / 8)]
    exact decide_eq_decide.mpr (by omega)
  · exact ⟨by simp [h], by simp [h], fun h1 _ => absurd h1 h⟩

/-- Witness for `isUnderLoad_latch`: capacity 1024, occupancy 128 at time
0 latches; a call at 0.5 s with empty queue is still under load. -/
theorem isUnderLoad_latch_witness :
    (IsUnderLoad 0 1024 500000000 (IsUnderLoad 128 1024 0 ⟨0⟩).2).1 =
      decide ((500000000 : Int) - 0 < (UnderLoadAfterTime : Int)) :=
  (isUnderLoad_latch 128 1024 0 0 500000000 ⟨0⟩).2.2 (by decide) (by decide)

/-! ### C3: initiator keypair rotation -/

/-- C3 counterexample: initiator-side keypair derivation
(`responseConsumed`) with slots (current = 1, previous = 2, next = 3) and
new keypair 9: the code discards the old current (1) and demotes the
*next* keypair (3) to previous — the claim instead requires the old
current demoted to previous and next discarded. -/
theorem beginSymmetricSession_next_counterexample :
    beginSymmetricSession HandshakeState.responseConsumed
        (⟨some 1, some 2, some 3⟩ : KeypairSlots Nat) 9 =
      some (⟨some 9, some 3, none⟩, [1, 2]) ∧
    (⟨some 9, some 3, none⟩ : KeypairSlots Nat).previous ≠ some 1 ∧
    1 ∈ [1, 2] ∧ 3 ∉ [1, 2] := by decide

/-- C3 (amended): initiator-side derivation installs the new keypair as
current and clears next; when no next keypair existed, the old current is
demoted to previous and the old previous discarded; when a next keypair
existed, *it* is demoted to previous while the old current and old
previous are discarded. -/
theorem beginSymmetricSession_initiator_rotation (kp : KeypairSlots K)
    (k : K) (res : KeypairSlots K × List K)
    (h : beginSymmetricSession .responseConsumed kp k = some res) :
    res.1.current = some k ∧ res.1.next = none ∧
    (kp.next = none →
      res.1.previous = kp.current ∧ res.2 = kp.previous.toList) ∧
    (∀ n, kp.next = some n → res.1.previous = some n ∧
      res.2 = kp.current.toList ++ kp.previous.toList) := by
  unfold beginSymmetricSession beginSymmetricSessionRotation at h
  cases hn : kp.next with
  | none => simp [hn] at h; simp [← h, hn]
  | some n => simp [hn] at h; simp [← h, hn]

/-- Witness for `beginSymmetricSession_initiator_rotation` at slots
(current = 4, previous = 5, next = none) and new keypair 9. -/
theorem beginSymmetricSession_initiator_rotation_witness :
    (⟨some 9, some 4, none⟩ : KeypairSlots Nat) = ⟨some 9, some 4, none⟩ ∧
    ([5] : List Nat) = [5] :=
  have h := beginSymmetricSession_initiator_rotation
    (⟨some 4, some 5, none⟩ : KeypairSlots Nat) 9
    (⟨some 9, some 4, none⟩, [5]) (by decide)
  ⟨by rw [show (⟨some 9, some 4, none⟩ : KeypairSlots Nat) =
      ({ current := some 9, previous := some 4, next := none } :
        KeypairSlots Nat) from rfl], (h.2.2.1 rfl).2⟩

/-! ### C5: initiation replay and flood rejection -/

/-- C5: `ConsumeMessageInitiation` fails exactly when the decrypted
timestamp is not after the last accepted one, or when less than (or
exactly) `HANDSHAKE_INITIATION_RATE = 50 ms` elapsed since the last
accepted initiation consumption; on every rejection the peer's handshake
record (state word, hash, chain key, remote index, remote ephemeral,
last timestamp, last consumption time) is returned unchanged. -/
theorem consumeInitiation_replay_flood (h : Handshake) (msgSender : Nat)
    (msgEphemeral hash chainKey : List Nat) (ts : Nat) (now : Int) :
    ((consumeMessageInitiation h msgSender msgEphemeral hash chainKey ts
        now).1 = false ↔
      (ts ≤ h.lastTimestamp ∨
        now - h.lastInitiationConsumption ≤ (HandshakeInitationRate : Int)))
    ∧
    ((consumeMessageInitiation h msgSender msgEphemeral hash chainKey ts
        now).1 = false →
      (consumeMessageInitiation h msgSender msgEphemeral hash chainKey ts
        now).2 = h) := by
  unfold consumeMessageInitiation
  by_cases h1 : ts > h.lastTimestamp <;>
    by_cases h2 : now - h.lastInitiationConsumption ≤
      (HandshakeInitationRate : Int) <;>
    simp [h1, h2] <;> omega

/-- Witness for `consumeInitiation_replay_flood`: a replayed timestamp
(equal to the stored one) is rejected with the handshake unchanged. -/
theorem consumeInitiation_replay_flood_witness :
    (consumeMessageInitiation ⟨.zeroed, [], [], 0, [], 5, 0⟩ 1 [2] [3] [4] 5
        1000000000).2 = ⟨.zeroed, [], [], 0, [], 5, 0⟩ :=
  (consumeInitiation_replay_flood ⟨.zeroed, [], [], 0, [], 5, 0⟩ 1 [2] [3]
      [4] 5 1000000000).2
    ((consumeInitiation_replay_flood ⟨.zeroed, [], [], 0, [], 5, 0⟩ 1 [2]
      [3] [4] 5 1000000000).1.mpr (Or.inl (by decide)))

/-! ### C4: outbound nonce assignment -/

/-- C4 counterexample: a container of three frames reaching the counter
one below `REJECT_AFTER_MESSAGES`: the second and third frames are both
assigned the nonce `REJECT_AFTER_MESSAGES` (the overflow branch stores
`RejectAfterMessages` back, and the next fetch-and-increment yields it
again), so the nonces assigned by one `SendStagedPackets` run are not
pairwise distinct. -/
theorem sendStaged_nonce_counterexample :
    (sendStagedLoop [10, 20, 30] (RejectAfterMessages - 1)).published.map
        Prod.snd = [RejectAfterMessages - 1] ∧
    (sendStagedLoop [10, 20, 30] (RejectAfterMessages - 1)).ooo.map
        Prod.snd = [RejectAfterMessages, RejectAfterMessages] ∧
    ¬ ((sendStagedLoop [10, 20, 30] (RejectAfterMessages - 1)).published.map
          Prod.snd ++
        (sendStagedLoop [10, 20, 30] (RejectAfterMessages - 1)).ooo.map
          Prod.snd).Pairwise (· ≠ ·) := by decide

/-- C4 (amended): within one nonce-assignment run the frames *published to
the encryption queue* receive pairwise distinct, strictly increasing
nonces below `REJECT_AFTER_MESSAGES` (each at least the starting
counter); every frame whose assigned nonce is ≥ `REJECT_AFTER_MESSAGES`
is moved to the out-of-order container that is re-staged — never
published — though such frames may repeat the nonce value
`REJECT_AFTER_MESSAGES`; together they partition the container. -/
theorem sendStaged_published_nonces (elems : List Nat) (s : Nat) :
    ((sendStagedLoop elems s).published.map Prod.snd).Pairwise (· < ·) ∧
    (∀ p ∈ (sendStagedLoop elems s).published,
      s ≤ p.2 ∧ p.2 < RejectAfterMessages) ∧
    (∀ q ∈ (sendStagedLoop elems s).ooo, RejectAfterMessages ≤ q.2) ∧
    elems.Perm ((sendStagedLoop elems s).published.map Prod.fst ++
      (sendStagedLoop elems s).ooo.map Prod.fst) := by
  induction elems generalizing s with
  | nil => simp [sendStagedLoop]
  | cons e rest ih =>
    by_cases hs : s ≥ RejectAfterMessages
    · have ihR := ih RejectAfterMessages
      have hpub : (sendStagedLoop rest RejectAfterMessages).published = [] := by
        rcases hp : (sendStagedLoop rest RejectAfterMessages).published with
          _ | ⟨p, ps⟩
        · rfl
        · exact absurd (ihR.2.1 p (by rw [hp]; exact List.mem_cons_self p ps))
            (by omega)
      refine ⟨?_, ?_, ?_, ?_⟩
      · simp [sendStagedLoop, if_pos hs, hpub]
      · simp [sendStagedLoop, if_pos hs, hpub]
      · intro q hq
        simp only [sendStagedLoop, if_pos hs, List.mem_cons] at hq
        rcases hq with rfl | hq
        · exact hs
        · exact ihR.2.2.1 q hq
      · simp only [sendStagedLoop, if_pos hs, hpub, List.map_nil,
          List.nil_append, List.map_cons]
        have := ihR.2.2.2
        rw [hpub] at this
        simp only [List.map_nil, List.nil_append] at this
        exact List.Perm.cons e this
    · have ihS := ih (s + 1)
      refine ⟨?_, ?_, ?_, ?_⟩
      · simp only [sendStagedLoop, if_neg hs, List.map_cons]
        exact List.Pairwise.cons
          (by
            intro x hx
            simp only [List.mem_map] at hx
            obtain ⟨p, hp, rfl⟩ := hx
            have := (ihS.2.1 p hp).1
            omega)
          ihS.1
      · intro p hp
        simp only [sendStagedLoop, if_neg hs, List.mem_cons] at hp
        rcases hp with rfl | hp
        · exact ⟨le_rfl, by omega⟩
        · have := ihS.2.1 p hp
          exact ⟨by omega, this.2⟩
      · intro q hq
        simp only [sendStagedLoop, if_neg hs] at hq
        exact ihS.2.2.1 q hq
      · simp only [sendStagedLoop, if_neg hs, List.map_cons,
          List.cons_append]
        exact List.Perm.cons e ihS.2.2.2

/-- Witness for `sendStaged_published_nonces`: two frames from counter 0
get nonces 0 and 1. -/
theorem sendStaged_published_nonces_witness :
    (10, 0) ∈ (sendStagedLoop [10, 20] 0).published ∧
    0 ≤ (10, 0).2 ∧ (10, 0).2 < RejectAfterMessages :=
  ⟨by decide,
    (sendStaged_published_nonces [10, 20] 0).2.1 (10, 0) (by decide)⟩

/-! ### C6: transport classification and keypair expiry -/

/-- C6 counterexample: a well-formed 32-byte transport datagram whose
keypair was created at time 0, classified at `now` exactly
`REJECT_AFTER_TIME` later: `now - created ≥ REJECT_AFTER_TIME` holds, so
the claim demands a drop, but the code (which tests
`created + RejectAfterTime < now` strictly) admits it to the decryption
queue. -/
theorem receiveClassify_expiry_counterexample :
    receiveClassify (putUint32 4 ++ putUint32 7 ++ List.replicate 24 0)
        (fun i => if i = 7 then some (3, 0) else none)
        (RejectAfterTime : Int) = .toDecryption 3 ∧
    (RejectAfterTime : Int) - 0 ≥ (RejectAfterTime : Int) := by
  constructor
  · decide
  · omega

/-- C6 (amended): a received transport datagram whose receiver index has
no keypair in the index table, or whose keypair is *strictly* older than
`REJECT_AFTER_TIME = 180 s`, is dropped by the receive classifier and
never enters the decryption queue; with a keypair of age at most
`REJECT_AFTER_TIME` it is grouped for the decryption queue. -/
theorem receiveClassify_transport (packet : List Nat)
    (lookupKeypair : Nat → Option (Nat × Int)) (now : Int)
    (hlen : MessageTransportSize ≤ packet.length)
    (htype : readUint32 packet 0 = MessageTransportType) :
    (receiveClassify packet lookupKeypair now = .drop ↔
      (lookupKeypair (readUint32 packet 4) = none ∨
        ∃ p c, lookupKeypair (readUint32 packet 4) = some (p, c) ∧
          now - c > (RejectAfterTime : Int))) ∧
    (∀ p c, lookupKeypair (readUint32 packet 4) = some (p, c) →
      now - c ≤ (RejectAfterTime : Int) →
      receiveClassify packet lookupKeypair now = .toDecryption p) := by
  have hmin : ¬ packet.length < MinMessageSize := by
    have : MinMessageSize = MessageTransportSize := rfl
    omega
  have htr : ¬ packet.length < MessageTransportSize := by omega
  have hstep : receiveClassify packet lookupKeypair now =
      (match lookupKeypair (readUint32 packet 4) with
       | none => RecvVerdict.drop
       | some (p, c) =>
         if c + (RejectAfterTime : Int) < now then RecvVerdict.drop
         else RecvVerdict.toDecryption p) := by
    unfold receiveClassify
    rw [if_neg hmin, htype, if_pos rfl, if_neg htr]
  rw [hstep]
  rcases hk : lookupKeypair (readUint32 packet 4) with _ | ⟨p, c⟩
  · simp
  · have hred : (match some (p, c) with
        | none => RecvVerdict.drop
        | some (p, c) =>
          if c + (RejectAfterTime : Int) < now then RecvVerdict.drop
          else RecvVerdict.toDecryption p) =
        (if c + (RejectAfterTime : Int) < now then RecvVerdict.drop
         else RecvVerdict.toDecryption p) := rfl
    rw [hred]
    by_cases hage : c + (RejectAfterTime : Int) < now
    · rw [if_pos hage]
      refine ⟨⟨fun _ => Or.inr ⟨p, c, rfl, by omega⟩, fun _ => rfl⟩, ?_⟩
      intro p' c' hpc hage'
      injection hpc with h'
      injection h' with h1 h2
      omega
    · rw [if_neg hage]
      refine ⟨⟨fun hcontra => absurd hcontra (by simp), ?_⟩, ?_⟩
      · rintro (hnone | ⟨p', c', hpc, hgt⟩)
        · exact absurd hnone (by simp)
        · injection hpc with h'
          injection h' with h1 h2
          omega
      · intro p' c' hpc _
        injection hpc with h'
        injection h' with h1 h2
        rw [h1]

/-- Witness for `receiveClassify_transport`: the concrete datagram of
type 4 with receiver index 7 and a fresh keypair is sent to
decryption. -/
theorem receiveClassify_transport_witness :
    receiveClassify (putUint32 4 ++ putUint32 7 ++ List.replicate 24 0)
      (fun i => if i = 7 then some (3, 0) else none) 1000000000 =
      .toDecryption 3 :=
  (receiveClassify_transport (putUint32 4 ++ putUint32 7 ++
      List.replicate 24 0) (fun i => if i = 7 then some (3, 0) else none)
      1000000000 (by decide) (by decide)).2 3 0 (by decide) (by decide)

/-! ### C8: token-bucket rate limiter -/

/-- C8 counterexample: for a first-contact source address, five
consecutive `Allow` calls at one instant yield only **4** successes — the
fifth call finds `tokens = packetCost` and the strict `tokens >
packetCost` test fails — so "exactly 5 consecutive calls return true" is
false on this code. -/
theorem ratelimiter_burst_counterexample :
    ratelimiterRun none [0, 0, 0, 0, 0] =
      (4, some ⟨0, packetCost⟩) ∧
    (ratelimiterRun none [0, 0, 0, 0, 0]).1 ≠ 5 := by decide

/-- Single `Allow` step facts: time advances to `now`, tokens stay within
`[0, maxTokens]`, and an allowed packet consumes `packetCost` of the
budget `tokens + elapsed`. -/
theorem ratelimiterAllow_step (e : RatelimiterEntry) (t : Int)
    (hle : e.lastTime ≤ t) (h0 : 0 ≤ e.tokens) (hM : e.tokens ≤ maxTokens) :
    (ratelimiterAllow (some e) t).2.lastTime = t ∧
    0 ≤ (ratelimiterAllow (some e) t).2.tokens ∧
    (ratelimiterAllow (some e) t).2.tokens ≤ maxTokens ∧
    packetCost * (if (ratelimiterAllow (some e) t).1 then (1 : Int) else 0) ≤
      e.tokens - (ratelimiterAllow (some e) t).2.tokens + (t - e.lastTime)
    := by
  have hc : packetCost = 50000000 := rfl
  have hm : maxTokens = 250000000 := rfl
  have hred : ratelimiterAllow (some e) t =
      if packetCost <
          (if maxTokens < e.tokens + (t - e.lastTime) then maxTokens
           else e.tokens + (t - e.lastTime)) then
        (true, ⟨t, (if maxTokens < e.tokens + (t - e.lastTime) then maxTokens
          else e.tokens + (t - e.lastTime)) - packetCost⟩)
      else
        (false, ⟨t, if maxTokens < e.tokens + (t - e.lastTime) then maxTokens
          else e.tokens + (t - e.lastTime)⟩) := rfl
  rw [hred]
  by_cases hclamp : maxTokens < e.tokens + (t - e.lastTime) <;>
    simp only [if_pos, if_neg, hclamp, ite_true, ite_false] <;>
    (by_cases hpass : packetCost <
        (if maxTokens < e.tokens + (t - e.lastTime) then maxTokens
         else e.tokens + (t - e.lastTime)) <;>
      simp only [hclamp, if_true, if_false, ite_true, ite_false] at hpass ⊢
        <;>
      simp [hpass] <;> omega)

/-- Budget bound for a run of `Allow` calls at nondecreasing times: the
allowed count times `packetCost` never exceeds the initial tokens plus
the elapsed nanoseconds (minus what remains). -/
theorem ratelimiterRun_bound (ts : List Int) (e : RatelimiterEntry)
    (hchain : List.Chain (· ≤ ·) e.lastTime ts)
    (h0 : 0 ≤ e.tokens) (hM : e.tokens ≤ maxTokens) :
    ∃ e', (ratelimiterRun (some e) ts).2 = some e' ∧
      0 ≤ e'.tokens ∧ e'.tokens ≤ maxTokens ∧
      e'.lastTime = ts.getLastD e.lastTime ∧
      packetCost * ((ratelimiterRun (some e) ts).1 : Int) ≤
        e.tokens - e'.tokens + (e'.lastTime - e.lastTime) := by
  induction ts generalizing e with
  | nil =>
    refine ⟨e, rfl, h0, hM, by simp [ratelimiterRun], ?_⟩
    show packetCost * ((0 : Nat) : Int) ≤ _
    simp
  | cons t ts ih =>
    rw [List.chain_cons] at hchain
    obtain ⟨hle, hchain'⟩ := hchain
    obtain ⟨hlt, he0, heM, hbudget⟩ := ratelimiterAllow_step e t hle h0 hM
    obtain ⟨e', he', h0', hM', hlast', hbound'⟩ :=
      ih (ratelimiterAllow (some e) t).2 (by rw [hlt]; exact hchain') he0 heM
    refine ⟨e', ?_, h0', hM', ?_, ?_⟩
    · simpa [ratelimiterRun] using he'
    · rw [hlt] at hlast'
      rw [List.getLastD_cons]
      exact hlast'
    · have h2eq : (ratelimiterRun (some e) (t :: ts)).1 =
          (if (ratelimiterAllow (some e) t).1 then 1 else 0) +
          (ratelimiterRun (some (ratelimiterAllow (some e) t).2) ts).1 := rfl
      rw [hlt] at hbound'
      rcases hb : (ratelimiterAllow (some e) t).1 <;>
        simp only [hb, Bool.false_eq_true, if_true, if_false, ite_true,
          ite_false, mul_zero, mul_one, Nat.zero_add] at hbudget h2eq <;>
        rw [h2eq] <;> push_cast <;> ring_nf <;> ring_nf at hbound' <;>
        linarith [hbudget, hbound']

/-- C8 (amended): the per-source token bucket allows at most 20 packets
per second with a burst allowance of 5 tokens of which the strict
comparison leaves one unspendable: for a source whose bucket is full
(first contact, or an existing entry refilled to `maxTokens`), exactly
**4** consecutive same-instant `Allow` calls return true and the
immediately following call returns false; and over any nondecreasing
call-time sequence the allowed count satisfies
`packetCost · count ≤ maxTokens + elapsed`, i.e. at most
`5 + 20 · seconds` packets. -/
theorem ratelimiter_burst_and_rate (t0 : Int) (ts : List Int)
    (hchain : List.Chain (· ≤ ·) t0 ts) :
    (ratelimiterRun none (List.replicate 5 t0)).1 = 4 ∧
    (ratelimiterRun none (List.replicate 5 t0)).2 =
      some ⟨t0, packetCost⟩ ∧
    (ratelimiterRun (some ⟨t0, maxTokens⟩) (List.replicate 5 t0)).1 = 4 ∧
    packetCost * ((ratelimiterRun none (t0 :: ts)).1 : Int) ≤
      maxTokens + (ts.getLastD t0 - t0) := by
  have hc : packetCost = 50000000 := rfl
  have hm : maxTokens = 250000000 := rfl
  have hfresh : ratelimiterAllow none t0 =
      (true, ⟨t0, maxTokens - packetCost⟩) := rfl
  refine ⟨?_, ?_, ?_, ?_⟩
  · show (ratelimiterRun none (t0 :: [t0, t0, t0, t0])).1 = 4
    simp only [ratelimiterRun, ratelimiterAllow, hc, hm]
    norm_num
  · show (ratelimiterRun none (t0 :: [t0, t0, t0, t0])).2 =
      some ⟨t0, packetCost⟩
    simp only [ratelimiterRun, ratelimiterAllow, hc, hm]
    norm_num
  · show (ratelimiterRun (some ⟨t0, maxTokens⟩) [t0, t0, t0, t0, t0]).1 = 4
    simp only [ratelimiterRun, ratelimiterAllow, hc, hm]
    norm_num
  · have hrun1 : (ratelimiterRun none (t0 :: ts)).1 =
        1 + (ratelimiterRun (some ⟨t0, maxTokens - packetCost⟩) ts).1 := rfl
    obtain ⟨e', _, h0', _, hlast', hbound'⟩ :=
      ratelimiterRun_bound ts ⟨t0, maxTokens - packetCost⟩ hchain
        (by show (0 : Int) ≤ maxTokens - packetCost; decide)
        (by show maxTokens - packetCost ≤ maxTokens; decide)
    dsimp only at hlast' hbound'
    rw [hrun1]
    push_cast
    have hexp : packetCost * (1 + ((ratelimiterRun
          (some ⟨t0, maxTokens - packetCost⟩) ts).1 : Int)) =
        packetCost + packetCost * ((ratelimiterRun
          (some ⟨t0, maxTokens - packetCost⟩) ts).1 : Int) := by ring
    rw [hexp]
    rw [hlast'] at hbound'
    linarith [hbound', h0']

/-- Witness for `ratelimiter_burst_and_rate`: six calls in one second. -/
theorem ratelimiter_burst_and_rate_witness :
    packetCost * ((ratelimiterRun none
        [0, 0, 0, 0, 0, 1000000000]).1 : Int) ≤
      maxTokens + (([0, 0, 0, 0, (1000000000 : Int)].getLastD 0) - 0) :=
  (ratelimiter_burst_and_rate 0 [0, 0, 0, 0, 1000000000]
    (by norm_num [List.chain_cons])).2.2.2

/-! ### C9: IPC get response keys -/

/-- C9 counterexample: even for a fully unset device (zero private key, no
port, no fwmark, no peers) the get response contains a
`hello_from_coder=Success` line, and `hello_from_coder` is none of the
keys the claim permits. -/
theorem ipcGet_extra_key_counterexample :
    ("hello_from_coder", "Success") ∈
      ipcGetLines ⟨List.replicate 32 0, 0, 0, []⟩ ∧
    "hello_from_coder" ∉ specGetResponseKeys := by
  constructor
  · simp [ipcGetLines, isZeroKey]
  · simp [specGetResponseKeys]

/-- Membership in a singleton guarded by a condition. -/
theorem mem_ite_singleton {s x : String} {c : Prop} [Decidable c]
    (hs : s ∈ if c then [x] else []) : s = x := by
  split at hs
  · simpa using hs
  · simp at hs

/-- Every key of the spec-side sequence is either the fork's extra key or
one of the keys the spec lists. -/
theorem specGetKeySeq_keys (d : DeviceGetState) (s : String)
    (hs : s ∈ specGetKeySeq d) :
    s = "hello_from_coder" ∨ s ∈ specGetResponseKeys := by
  unfold specGetKeySeq at hs
  rcases List.mem_append.mp hs with hdev | hflat2
  · rcases List.mem_append.mp hdev with habc | hh
    · rcases List.mem_append.mp habc with hab | hc
      · rcases List.mem_append.mp hab with ha | hb
        · exact Or.inr
            (by rw [mem_ite_singleton ha]; simp [specGetResponseKeys])
        · exact Or.inr
            (by rw [mem_ite_singleton hb]; simp [specGetResponseKeys])
      · exact Or.inr
          (by rw [mem_ite_singleton hc]; simp [specGetResponseKeys])
    · exact Or.inl (by simpa using hh)
  · obtain ⟨p, _, hblock⟩ := List.mem_flatMap.mp hflat2
    rcases List.mem_append.mp hblock with h12 | hmapm
    · rcases List.mem_append.mp h12 with h1 | h5
      · rcases List.mem_append.mp h1 with h3 | hif
        · refine Or.inr ?_
          simp only [List.mem_cons, List.not_mem_nil, or_false] at h3
          rcases h3 with rfl | rfl | rfl <;> simp [specGetResponseKeys]
        · exact Or.inr
            (by rw [mem_ite_singleton hif]; simp [specGetResponseKeys])
      · refine Or.inr ?_
        simp only [List.mem_cons, List.not_mem_nil, or_false] at h5
        rcases h5 with rfl | rfl | rfl | rfl | rfl <;>
          simp [specGetResponseKeys]
    · obtain ⟨_, _, hmap⟩ := List.mem_map.mp hmapm
      exact Or.inr (by rw [← hmap]; simp [specGetResponseKeys])

/-- C9 (amended): the get=1 response body consists, in order, of the
device keys `private_key`, `listen_port`, `fwmark` (each omitted when
unset or zero), one `hello_from_coder` line added by this fork, and then
for each peer `public_key`, `preshared_key`, `protocol_version`,
`endpoint` (omitted when no endpoint is set), `last_handshake_time_sec`,
`last_handshake_time_nsec`, `tx_bytes`, `rx_bytes`,
`persistent_keepalive_interval` and one `allowed_ip` line per prefix; no
line with any key other than these appears. -/
theorem ipcGet_key_sequence (d : DeviceGetState) :
    (ipcGetLines d).map Prod.fst = specGetKeySeq d ∧
    ∀ kv ∈ ipcGetLines d,
      kv.1 = "hello_from_coder" ∨ kv.1 ∈ specGetResponseKeys := by
  have hflat : ∀ ps : List PeerGetState,
      (ps.flatMap fun p =>
        [("public_key", hexOfBytes p.remoteStatic),
         ("preshared_key", hexOfBytes p.presharedKey),
         ("protocol_version", "1")] ++
        (match p.endpointStr with
         | some e => [("endpoint", e)]
         | none => []) ++
        [("last_handshake_time_sec",
           toString (p.lastHandshakeNano / 1000000000)),
         ("last_handshake_time_nsec",
           toString (p.lastHandshakeNano % 1000000000)),
         ("tx_bytes", toString p.txBytes),
         ("rx_bytes", toString p.rxBytes),
         ("persistent_keepalive_interval",
           toString p.persistentKeepaliveInterval)] ++
        p.allowedIPs.map (fun pr => ("allowed_ip", pr))).map Prod.fst =
      ps.flatMap fun p =>
        ["public_key", "preshared_key", "protocol_version"] ++
        (if p.endpointStr.isSome then ["endpoint"] else []) ++
        ["last_handshake_time_sec", "last_handshake_time_nsec", "tx_bytes",
         "rx_bytes", "persistent_keepalive_interval"] ++
        p.allowedIPs.map (fun _ => "allowed_ip") := by
    intro ps
    induction ps with
    | nil => rfl
    | cons p ps ih =>
      simp only [List.flatMap_cons, List.map_append, ih]
      congr 1
      cases hep : p.endpointStr <;>
        simp [List.map_append, List.map_map, Function.comp]
  have hmain : (ipcGetLines d).map Prod.fst = specGetKeySeq d := by
    unfold ipcGetLines specGetKeySeq
    simp only [List.map_append, hflat d.peers,
      apply_ite (List.map (@Prod.fst String String)), List.map_cons,
      List.map_nil]
  refine ⟨hmain, fun kv hkv => ?_⟩
  have h1 : kv.1 ∈ (ipcGetLines d).map Prod.fst := List.mem_map_of_mem _ hkv
  rw [hmain] at h1
  exact specGetKeySeq_keys d kv.1 h1

/-- Witness for `ipcGet_key_sequence`: the fork's extra line of a bare
device is covered by the amended key set. -/
theorem ipcGet_key_sequence_witness :
    ("hello_from_coder", "Success").1 = "hello_from_coder" ∨
      ("hello_from_coder", "Success").1 ∈ specGetResponseKeys :=
  (ipcGet_key_sequence ⟨List.replicate 32 0, 0, 0, []⟩).2
    ("hello_from_coder", "Success") (by decide)

/-! ### C2: inbound source-address check -/

theorem take_getD_zero (pkt : List Nat) (L : Nat) (hL : 0 < L) :
    (pkt.take L).getD 0 0 = pkt.getD 0 0 := by
  cases pkt with
  | nil => simp
  | cons a l =>
    cases L with
    | zero => omega
    | succ n => simp [List.getD]

theorem take_drop_take (pkt : List Nat) (L m k : Nat) (h : m + k ≤ L) :
    ((pkt.take L).drop m).take k = (pkt.drop m).take k := by
  rw [List.drop_take, List.take_take]
  congr 1
  omega

/-- A successful table lookup forces an address of 128 or 32 bits. -/
theorem lookup_some_length (t : AllowedIPs) (ip : List Bool) (p : Nat)
    (h : t.Lookup ip = some p) : ip.length = 128 ∨ ip.length = 32 := by
  unfold AllowedIPs.Lookup at h
  by_cases h128 : ip.length = 128
  · exact Or.inl h128
  · by_cases h32 : ip.length = 32
    · exact Or.inr h32
    · rw [if_neg h128, if_neg h32] at h
      exact absurd h (by simp)

theorem bytesToBits_length (bs : List Nat) :
    (bytesToBits bs).length = 8 * bs.length := by
  induction bs with
  | nil => rfl
  | cons b l ih =>
    show (byteToBits b ++ bytesToBits l).length = 8 * (l.length + 1)
    rw [List.length_append, ih]
    simp [byteToBits]
    ring

/-- C2: a decrypted inbound transport element is written to the tunnel
only if the Allowed-IPs lookup of the decrypted packet's inner source
address (the bytes the code reslices from the underlying buffer, i.e.
offsets 12..16 / 8..24 of the unclipped packet) equals the peer whose
keypair decrypted it; and when the lookup of that inner source address
yields a different peer or none, the element is dropped. -/
theorem seqReceiver_source_check (table : AllowedIPs) (peer : Nat)
    (packet : Option (List Nat)) (replayOk : Bool) :
    (∀ out pkt, packet = some pkt →
      sequentialReceiveElem table peer packet replayOk = some out →
      ∃ src, innerSource pkt = some src ∧
        table.Lookup (bytesToBits src) = some peer) ∧
    (∀ pkt src, packet = some pkt → innerSource pkt = some src →
      table.Lookup (bytesToBits src) ≠ some peer →
      sequentialReceiveElem table peer packet replayOk = none) := by
  constructor
  · intro out pkt hpkt hout
    subst hpkt
    replace hout : sequentialReceiveBody table peer pkt replayOk =
      some out := hout
    unfold sequentialReceiveBody at hout
    split_ifs at hout with h1 h2 h3 h4 h5 h6 h7 h8 h9 h10 <;>
      try exact Option.noConfusion hout
    · -- IPv4 delivery: h3 version, h6 source admitted
      refine ⟨(pkt.drop IPv4offsetSrc).take 4, ?_, not_not.mp h6⟩
      unfold innerSource
      rw [if_pos h3]
    · -- IPv6 delivery: h7 version, h10 source admitted
      refine ⟨(pkt.drop IPv6offsetSrc).take 16, ?_, not_not.mp h10⟩
      unfold innerSource
      rw [if_neg h3, if_pos h7]
  · intro pkt src hpkt hsrc hlook
    subst hpkt
    show sequentialReceiveBody table peer pkt replayOk = none
    unfold sequentialReceiveBody
    unfold innerSource at hsrc
    split_ifs with h1 h2 h3 h4 h5 h6 h7 h8 h9 h10 <;> try rfl
    · -- IPv4: the checked source is the packet's source
      exfalso
      rw [if_pos h3, Option.some.injEq] at hsrc
      apply hlook
      rw [← hsrc]
      exact not_not.mp h6
    · -- IPv6: the checked source is the packet's source, clip or not
      exfalso
      rw [if_neg h3, if_pos h7, Option.some.injEq] at hsrc
      apply hlook
      rw [← hsrc]
      exact not_not.mp h10

/-- Witness for `seqReceiver_source_check`: a 20-byte IPv4 packet from
10.0.0.1 is dropped when the table does not map 10.0.0.1 to peer 1. -/
theorem seqReceiver_source_check_witness :
    sequentialReceiveElem ⟨Trie.empty, Trie.empty⟩ 1
      (some [69, 0, 0, 20, 0, 0, 0, 0, 0, 0, 0, 0, 10, 0, 0, 1,
        10, 0, 0, 2]) true = none :=
  (seqReceiver_source_check ⟨Trie.empty, Trie.empty⟩ 1
      (some [69, 0, 0, 20, 0, 0, 0, 0, 0, 0, 0, 0, 10, 0, 0, 1,
        10, 0, 0, 2]) true).2
    [69, 0, 0, 20, 0, 0, 0, 0, 0, 0, 0, 0, 10, 0, 0, 1, 10, 0, 0, 2]
    [10, 0, 0, 1] rfl (by decide) (by decide)

/-! ### C1: trie correctness — bit-string toolbox -/

theorem commonBits_le_left : ∀ a b : List Bool, commonBits a b ≤ a.length
  | [], b => by cases b <;> simp [commonBits]
  | _ :: _, [] => by simp [commonBits]
  | x :: as, y :: bs => by
    unfold commonBits
    split_ifs
    · exact Nat.succ_le_succ (commonBits_le_left as bs)
    · simp

theorem commonBits_comm : ∀ a b : List Bool, commonBits a b = commonBits b a
  | [], b => by cases b <;> simp [commonBits]
  | _ :: _, [] => by simp [commonBits]
  | x :: as, y :: bs => by
    unfold commonBits
    rcases Bool.decEq x y with h | h
    · rw [if_neg h, if_neg (fun hyx => h hyx.symm)]
    · rw [if_pos h, if_pos h.symm, commonBits_comm as bs]

theorem commonBits_le_right (a b : List Bool) :
    commonBits a b ≤ b.length := by
  rw [commonBits_comm]
  exact commonBits_le_left b a

theorem commonBits_take : ∀ (a b : List Bool) (n : Nat),
    n ≤ commonBits a b → a.take n = b.take n
  | [], b, n, h => by
    cases b <;> simp [commonBits] at h <;> simp [h]
  | _ :: _, [], n, h => by
    simp [commonBits] at h
    simp [h]
  | x :: as, y :: bs, n, h => by
    unfold commonBits at h
    split_ifs at h with hxy
    · cases n with
      | zero => rfl
      | succ m =>
        rw [hxy]
        simpa using commonBits_take as bs m (by omega)
    · cases n with
      | zero => rfl
      | succ m => omega

theorem le_commonBits : ∀ (a b : List Bool) (n : Nat), n ≤ a.length →
    n ≤ b.length → a.take n = b.take n → n ≤ commonBits a b
  | _, _, 0, _, _, _ => Nat.zero_le _
  | [], _, n + 1, ha, _, _ => by simp at ha
  | _ :: _, [], n + 1, _, hb, _ => by simp at hb
  | x :: as, y :: bs, n + 1, ha, hb, heq => by
    simp only [List.take_succ_cons, List.cons.injEq] at heq
    unfold commonBits
    rw [if_pos heq.1]
    have := le_commonBits as bs n (by simpa using ha) (by simpa using hb)
      heq.2
    omega

theorem getD_commonBits_ne : ∀ a b : List Bool,
    commonBits a b < a.length → commonBits a b < b.length →
    a.getD (commonBits a b) false ≠ b.getD (commonBits a b) false
  | [], b, ha, _ => by simp at ha
  | _ :: _, [], _, hb => by simp at hb
  | x :: as, y :: bs, ha, hb => by
    unfold commonBits at *
    split_ifs at ha hb ⊢ with hxy
    · simpa using getD_commonBits_ne as bs (by simpa using ha)
        (by simpa using hb)
    · simpa using hxy

theorem getD_take : ∀ (l : List Bool) (n i : Nat), i < n →
    (l.take n).getD i false = l.getD i false
  | [], _, _, _ => by simp
  | x :: xs, n + 1, 0, _ => by simp [List.getD]
  | x :: xs, n + 1, i + 1, h => by
    simpa [List.getD] using getD_take xs n i (by omega)

theorem getD_replicate_false : ∀ (k i : Nat),
    (List.replicate k false).getD i false = false
  | 0, _ => by simp
  | k + 1, 0 => by simp [List.getD]
  | k + 1, i + 1 => by simpa [List.getD] using getD_replicate_false k i

theorem maskBits_nil (c : Nat) : maskBits [] c = [] := by
  simp [maskBits]

theorem maskBits_cons (x : Bool) (xs : List Bool) (c : Nat) :
    maskBits (x :: xs) (c + 1) = x :: maskBits xs c := by
  simp [maskBits]

theorem maskBits_zero (ip : List Bool) :
    maskBits ip 0 = List.replicate ip.length false := by
  simp [maskBits]

theorem maskBits_length : ∀ (ip : List Bool) (c : Nat),
    (maskBits ip c).length = ip.length := by
  intro ip c
  unfold maskBits
  rw [List.length_append, List.length_take, List.length_replicate]
  omega

theorem take_maskBits : ∀ (ip : List Bool) (c n : Nat), n ≤ c →
    (maskBits ip c).take n = ip.take n
  | [], c, n, _ => by simp [maskBits_nil]
  | x :: xs, c, 0, _ => by simp
  | x :: xs, c + 1, n + 1, h => by
    rw [maskBits_cons]
    simpa using take_maskBits xs c n (by omega)

theorem getD_maskBits_lt : ∀ (ip : List Bool) (c i : Nat), i < c →
    (maskBits ip c).getD i false = ip.getD i false
  | [], c, i, _ => by rw [maskBits_nil]
  | x :: xs, c + 1, 0, _ => by rw [maskBits_cons]; simp [List.getD]
  | x :: xs, c + 1, i + 1, h => by
    rw [maskBits_cons]
    simpa [List.getD] using getD_maskBits_lt xs c i (by omega)

theorem getD_maskBits_ge : ∀ (ip : List Bool) (c i : Nat), c ≤ i →
    (maskBits ip c).getD i false = false
  | [], c, i, _ => by rw [maskBits_nil]; simp
  | x :: xs, 0, i, _ => by
    rw [maskBits_zero]
    exact getD_replicate_false _ _
  | x :: xs, c + 1, i + 1, h => by
    rw [maskBits_cons]
    simpa [List.getD] using getD_maskBits_ge xs c i (by omega)

theorem take_maskBits_self (ip : List Bool) (c : Nat) :
    (maskBits ip c).take c = ip.take c :=
  take_maskBits ip c c le_rfl

theorem commonBits_maskBits_self (ip : List Bool) (c : Nat)
    (h : c ≤ ip.length) : c ≤ commonBits (maskBits ip c) ip :=
  le_commonBits _ _ c (by rw [maskBits_length]; exact h) h
    (take_maskBits_self ip c)

/-! ### C1: the accumulator fold and the spec-side map -/

theorem orFound_some (p : Nat) (b : Option Nat) :
    orFound (some p) b = some p := rfl

theorem orFound_none (b : Option Nat) : orFound none b = b := rfl

theorem orFound_assoc (a b c : Option Nat) :
    orFound (orFound a b) c = orFound a (orFound b c) := by
  cases a <;> rfl

theorem absFind_insert (m : AbsMap) (k key : List Bool) (p : Nat) :
    absFind (absInsert m k p) key =
      if key = k then some p else absFind m key := by
  show (if k = key then some p else absFind m key) = _
  by_cases h : k = key
  · rw [if_pos h, if_pos h.symm]
  · rw [if_neg h, if_neg (fun h' => h h'.symm)]

theorem absFind_filter : ∀ (m : AbsMap) (k key : List Bool),
    absFind (m.filter (fun e => decide (e.1 ≠ k))) key =
      if key = k then none else absFind m key
  | [], k, key => by
    show (none : Option Nat) = if key = k then none else none
    split <;> rfl
  | (a, q) :: m, k, key => by
    show absFind (List.filter _ ((a, q) :: m)) key = _
    rw [List.filter_cons]
    by_cases hak : a = k
    · have : (decide ¬((a, q).1 = k)) = false := by simp [hak]
      rw [this]
      simp only [Bool.false_eq_true, if_neg (by simp : ¬False)]
      rw [absFind_filter m k key]
      by_cases hkey : key = k
      · rw [if_pos hkey, if_pos hkey]
      · rw [if_neg hkey, if_neg hkey]
        show absFind m key = if a = key then some q else absFind m key
        rw [if_neg (fun h : a = key => hkey (by rw [← h, hak]))]
    · have : (decide ¬((a, q).1 = k)) = true := by simp [hak]
      rw [this]
      simp only [if_pos rfl]
      show (if a = key then some q else _) = _
      by_cases hakey : a = key
      · rw [if_pos hakey]
        rw [if_neg (fun h : key = k => hak (by rw [hakey]; exact h))]
        show some q = if a = key then some q else absFind m key
        rw [if_pos hakey]
      · rw [if_neg hakey, absFind_filter m k key]
        by_cases hkey : key = k
        · rw [if_pos hkey, if_pos hkey]
        · rw [if_neg hkey, if_neg hkey]
          show absFind m key = if a = key then some q else absFind m key
          rw [if_neg hakey]

theorem absFind_remove (m : AbsMap) (k key : List Bool) (peer : Nat) :
    absFind (absRemove m k peer) key =
      if key = k ∧ absFind m key = some peer then none
      else absFind m key := by
  unfold absRemove
  by_cases hb : absFind m k = some peer
  · rw [if_pos hb, absFind_filter m k key]
    by_cases hkey : key = k
    · subst hkey
      rw [if_pos rfl, if_pos ⟨rfl, hb⟩]
    · rw [if_neg hkey, if_neg (fun h => hkey h.1)]
  · rw [if_neg hb]
    by_cases hkey : key = k
    · subst hkey
      rw [if_neg (fun h => hb h.2)]
    · rw [if_neg (fun h => hkey h.1)]

/-! ### C1: scan lemmas for the longest-match fold -/

theorem longestMatchBy_congr (f g : List Bool → Option Nat) (ip : List Bool)
    (n : Nat) (h : ∀ m, m ≤ n → f (ip.take m) = g (ip.take m)) :
    longestMatchBy f ip n = longestMatchBy g ip n := by
  induction n with
  | zero => simpa [longestMatchBy] using h 0 le_rfl
  | succ n ih =>
    unfold longestMatchBy
    rw [h (n+1) le_rfl]
    rcases g (ip.take (n+1)) with _ | p
    · exact ih (fun m hm => h m (by omega))
    · rfl

theorem longestMatchBy_none (f : List Bool → Option Nat) (ip : List Bool)
    (n : Nat) (h : ∀ m, m ≤ n → f (ip.take m) = none) :
    longestMatchBy f ip n = none := by
  induction n with
  | zero => simpa [longestMatchBy] using h 0 le_rfl
  | succ n ih =>
    unfold longestMatchBy
    rw [h (n+1) le_rfl]
    exact ih (fun m hm => h m (by omega))

theorem longestMatchBy_split (f g : List Bool → Option Nat) (ip : List Bool)
    (c n : Nat) (p0 : Option Nat) (hcn : c ≤ n)
    (hhigh : ∀ m, c < m → m ≤ n → f (ip.take m) = g (ip.take m))
    (hat : f (ip.take c) = p0)
    (hlow : ∀ m, m < c → f (ip.take m) = none)
    (hglow : ∀ m, m ≤ c → g (ip.take m) = none) :
    longestMatchBy f ip n = orFound (longestMatchBy g ip n) p0 := by
  induction n with
  | zero =>
    have hc0 : c = 0 := by omega
    subst hc0
    unfold longestMatchBy
    rw [hat, hglow 0 le_rfl]
    cases p0 <;> rfl
  | succ n ih =>
    by_cases hc : c = n + 1
    · subst hc
      have hgn' : longestMatchBy g ip n = none :=
        longestMatchBy_none g ip n (fun m hm => hglow m (by omega))
      have hfn : longestMatchBy f ip n = none :=
        longestMatchBy_none f ip n (fun m hm => hlow m (by omega))
      unfold longestMatchBy
      rw [hat, hglow (n+1) le_rfl]
      cases p0 with
      | none =>
        show longestMatchBy f ip n = orFound (longestMatchBy g ip n) none
        rw [hfn, hgn']
        rfl
      | some q =>
        show some q = orFound (longestMatchBy g ip n) (some q)
        rw [hgn']
        rfl
    · have hcn' : c ≤ n := by omega
      unfold longestMatchBy
      rw [hhigh (n+1) (by omega) le_rfl]
      rcases hg : g (ip.take (n+1)) with _ | p
      · show longestMatchBy f ip n = orFound (longestMatchBy g ip n) p0
        exact ih hcn' (fun m h1 h2 => hhigh m h1 (by omega))
      · rfl

/-! ### C1: well-formedness and the exact-prefix view -/

theorem find_some_extends (L : Nat) : ∀ (t : Trie) (ctx key : List Bool)
    (p : Nat), WFc L ctx t → trieFind t key = some p →
    ctx.length ≤ key.length ∧ key.take ctx.length = ctx ∧ key.length ≤ L
  | .empty, ctx, key, p, _, hfind => by simp [trieFind] at hfind
  | .node p0 bits c l r, ctx, key, p, hwf, hfind => by
    obtain ⟨hblen, hcL, hctxc, hctxtake, hmask, hwfl, hwfr⟩ := hwf
    unfold trieFind at hfind
    split_ifs at hfind with hexact hroute hbit
    · obtain ⟨hklen, hkey⟩ := hexact
      refine ⟨by omega, ?_, by omega⟩
      rw [hkey, List.take_take, min_eq_left hctxc, hctxtake]
    · -- routed right (branch bit true)
      obtain ⟨hck, htk⟩ := hroute
      obtain ⟨h1, h2, h3⟩ :=
        find_some_extends L r (bits.take c ++ [true]) key p hwfr hfind
      have hctxlen : (List.take c bits ++ [true]).length = c + 1 := by
        rw [List.length_append, List.length_take]
        simp
        omega
      rw [hctxlen] at h1 h2
      refine ⟨by omega, ?_, h3⟩
      have hsplit : key.take ctx.length = (key.take (c+1)).take ctx.length
        := by rw [List.take_take, min_eq_left (by omega)]
      rw [hsplit, h2, List.take_append_of_le_length
        (by rw [List.length_take]; omega), List.take_take,
        min_eq_left (by omega), hctxtake]
    · -- routed left (branch bit false)
      obtain ⟨hck, htk⟩ := hroute
      obtain ⟨h1, h2, h3⟩ :=
        find_some_extends L l (bits.take c ++ [false]) key p hwfl hfind
      have hctxlen : (List.take c bits ++ [false]).length = c + 1 := by
        rw [List.length_append, List.length_take]
        simp
        omega
      rw [hctxlen] at h1 h2
      refine ⟨by omega, ?_, h3⟩
      have hsplit : key.take ctx.length = (key.take (c+1)).take ctx.length
        := by rw [List.take_take, min_eq_left (by omega)]
      rw [hsplit, h2, List.take_append_of_le_length
        (by rw [List.length_take]; omega), List.take_take,
        min_eq_left (by omega), hctxtake]

/-- One-step equation for `trieFind` at a node. -/
theorem trieFind_node (p0 : Option Nat) (bits : List Bool) (c : Nat)
    (l r : Trie) (key : List Bool) :
    trieFind (.node p0 bits c l r) key =
      if key.length = c ∧ key = bits.take c then p0
      else if c < key.length ∧ bits.take c = key.take c then
        (if key.getD c false then trieFind r key else trieFind l key)
      else none := rfl

/-- One-step equation for `trieLookupAcc` at a node. -/
theorem trieLookupAcc_node (p0 : Option Nat) (bits : List Bool) (c : Nat)
    (l r : Trie) (ip : List Bool) (found : Option Nat) :
    trieLookupAcc (.node p0 bits c l r) ip found =
      if c ≤ commonBits bits ip then
        if c / 8 = ip.length / 8 then (if p0.isSome then p0 else found)
        else if ip.getD c false then
          trieLookupAcc r ip (if p0.isSome then p0 else found)
        else trieLookupAcc l ip (if p0.isSome then p0 else found)
      else found := rfl

theorem find_none_of_not_extends (L : Nat) (t : Trie) (ctx key : List Bool)
    (hwf : WFc L ctx t)
    (h : ¬ (ctx.length ≤ key.length ∧ key.take ctx.length = ctx)) :
    trieFind t key = none := by
  rcases hf : trieFind t key with _ | p
  · rfl
  · obtain ⟨h1, h2, _⟩ := find_some_extends L t ctx key p hwf hf
    exact absurd ⟨h1, h2⟩ h

theorem longestMatchBy_top (f : List Bool → Option Nat) (ip : List Bool)
    (n : Nat) (p0 : Option Nat) (hat : f (ip.take n) = p0)
    (hlow : ∀ m, m < n → f (ip.take m) = none) :
    longestMatchBy f ip n = p0 := by
  cases n with
  | zero => rw [← hat]; rfl
  | succ n =>
    unfold longestMatchBy
    rw [hat]
    cases p0 with
    | some q => rfl
    | none => exact longestMatchBy_none f ip n (fun m hm => hlow m (by omega))

/-! ### C1: lookup returns the longest exact-prefix match -/

theorem trieLookupAcc_spec (L : Nat) (hL8 : L % 8 = 0) :
    ∀ (t : Trie) (ctx ip : List Bool) (found : Option Nat),
    WFc L ctx t → ip.length = L →
    trieLookupAcc t ip found =
      orFound (longestMatchBy (trieFind t) ip ip.length) found
  | .empty, ctx, ip, found, _, hip => by
    rw [longestMatchBy_none (trieFind .empty) ip ip.length
      (fun m _ => rfl)]
    rfl
  | .node p0 bits c l r, ctx, ip, found, hwf, hip => by
    obtain ⟨hblen, hcL, hctxc, hctxtake, hmask, hwfl, hwfr⟩ := hwf
    by_cases hcb : commonBits bits ip ≥ c
    case neg =>
      -- the whole subtree misses `ip`: no stored prefix matches
      have hnone : ∀ m, m ≤ ip.length →
          trieFind (.node p0 bits c l r) (ip.take m) = none := by
        intro m hm
        unfold trieFind
        rw [if_neg ?hexact, if_neg ?hroute]
        case hexact =>
          rintro ⟨hlen, hkey⟩
          rw [List.length_take] at hlen
          have hm' : m = c := by omega
          subst hm'
          exact hcb (le_commonBits bits ip m (by omega) (by omega) hkey.symm)
        case hroute =>
          rintro ⟨hc1, hc2⟩
          rw [List.length_take] at hc1
          rw [List.take_take] at hc2
          rw [min_eq_left (by omega)] at hc2
          exact hcb (le_commonBits bits ip c (by omega) (by omega) hc2)
      rw [longestMatchBy_none _ _ _ hnone]
      show trieLookupAcc (.node p0 bits c l r) ip found = found
      unfold trieLookupAcc
      rw [if_neg hcb]
    case pos =>
      have htakec : bits.take c = ip.take c := commonBits_take bits ip c hcb
      by_cases hbreak : c / 8 = ip.length / 8
      · -- full-length node (`bitAtByte == size`): terminal
        have hceq : c = L := by omega
        have hbitsip : bits = ip := by
          have h := commonBits_take bits ip L (by omega)
          rwa [List.take_of_length_le (le_of_eq hblen),
            List.take_of_length_le (le_of_eq hip)] at h
        have hfind_top : trieFind (.node p0 bits c l r) ip = p0 := by
          have hcond : ip.length = c ∧ ip = bits.take c := by
            refine ⟨by omega, ?_⟩
            rw [hbitsip, List.take_of_length_le (by omega)]
          unfold trieFind
          rw [if_pos hcond]
        have hfind_lo : ∀ m, m < ip.length →
            trieFind (.node p0 bits c l r) (ip.take m) = none := by
          intro m hm
          unfold trieFind
          rw [if_neg ?e1, if_neg ?e2]
          case e1 =>
            rintro ⟨hlen, _⟩
            rw [List.length_take] at hlen
            omega
          case e2 =>
            rintro ⟨hc1, _⟩
            rw [List.length_take] at hc1
            omega
        have hlm : longestMatchBy (trieFind (.node p0 bits c l r)) ip
            ip.length = p0 := by
          apply longestMatchBy_top
          · rw [List.take_length]
            exact hfind_top
          · exact hfind_lo
        rw [hlm]
        unfold trieLookupAcc
        rw [if_pos hcb, if_pos hbreak]
        cases p0 <;> rfl
      · -- interior node: descend into the child on `ip`'s side
        have hclt : c < L := by omega
        have hfound' :
            trieLookupAcc (.node p0 bits c l r) ip found =
            trieLookupAcc (if ip.getD c false then r else l) ip
              (orFound p0 found) := by
          rw [trieLookupAcc_node, if_pos hcb, if_neg hbreak]
          cases hb : ip.getD c false <;> cases p0 <;> simp [hb, orFound]
        have hhigh : ∀ m, c < m → m ≤ ip.length →
            trieFind (.node p0 bits c l r) (ip.take m) =
              trieFind (if ip.getD c false then r else l) (ip.take m) := by
          intro m hcm hmL
          have hnex : ¬ ((ip.take m).length = c ∧ ip.take m = bits.take c)
            := by
            rintro ⟨hlen, _⟩
            rw [List.length_take] at hlen
            omega
          have hroute : c < (ip.take m).length ∧
              bits.take c = (ip.take m).take c := by
            refine ⟨by rw [List.length_take]; omega, ?_⟩
            rw [List.take_take, min_eq_left (by omega)]
            exact htakec
          rw [trieFind_node, if_neg hnex, if_pos hroute,
            getD_take ip m c (by omega)]
          cases hb : ip.getD c false <;> rfl
        have hat : trieFind (.node p0 bits c l r) (ip.take c) = p0 := by
          rw [trieFind_node, if_pos ⟨by rw [List.length_take]; omega,
            htakec.symm⟩]
        have hlow : ∀ m, m < c →
            trieFind (.node p0 bits c l r) (ip.take m) = none := by
          intro m hm
          have hnex : ¬ ((ip.take m).length = c ∧ ip.take m = bits.take c)
            := by
            rintro ⟨hlen, _⟩
            rw [List.length_take] at hlen
            omega
          have hnro : ¬ (c < (ip.take m).length ∧
              bits.take c = (ip.take m).take c) := by
            rintro ⟨hc1, _⟩
            rw [List.length_take] at hc1
            omega
          rw [trieFind_node, if_neg hnex, if_neg hnro]
        have hglow : ∀ m, m ≤ c →
            trieFind (if ip.getD c false then r else l) (ip.take m) = none
            := by
          intro m hm
          have hshort : ∀ (b : Bool), ¬ ((List.take c bits ++ [b]).length
              ≤ (ip.take m).length ∧ (ip.take m).take (List.take c bits
                ++ [b]).length = List.take c bits ++ [b]) := by
            intro b
            rintro ⟨h1, _⟩
            rw [List.length_append, List.length_take, List.length_take]
              at h1
            simp at h1
            omega
          cases hb : ip.getD c false
          · show trieFind l (List.take m ip) = none
            exact find_none_of_not_extends L l (bits.take c ++ [false])
              _ hwfl (hshort false)
          · show trieFind r (List.take m ip) = none
            exact find_none_of_not_extends L r (bits.take c ++ [true])
              _ hwfr (hshort true)
        have hsplit := longestMatchBy_split
          (trieFind (.node p0 bits c l r))
          (trieFind (if ip.getD c false then r else l)) ip c ip.length p0
          (by omega) hhigh hat hlow hglow
        rw [hfound', hsplit, orFound_assoc]
        cases hb : ip.getD c false
        · simp only [hb, Bool.false_eq_true, if_false]
          exact trieLookupAcc_spec L hL8 l (bits.take c ++ [false]) ip
            (orFound p0 found) hwfl hip
        · simp only [hb, if_true]
          exact trieLookupAcc_spec L hL8 r (bits.take c ++ [true]) ip
            (orFound p0 found) hwfr hip

/-! ### C1: insert commutes with the spec-side map -/

/-- One-step equation for `trieInsert` at a node. -/
theorem trieInsert_node (p0 : Option Nat) (bits : List Bool) (c : Nat)
    (l r : Trie) (ip : List Bool) (cidr peer : Nat) :
    trieInsert (.node p0 bits c l r) ip cidr peer =
      if c ≤ cidr ∧ c ≤ commonBits bits ip then
        if c = cidr then .node (some peer) bits c l r
        else if ip.getD c false then
          .node p0 bits c l (trieInsert r ip cidr peer)
        else .node p0 bits c (trieInsert l ip cidr peer) r
      else if cidr ≤ commonBits bits ip then
        if bits.getD cidr false then
          .node (some peer) (maskBits ip cidr) cidr .empty
            (.node p0 bits c l r)
        else
          .node (some peer) (maskBits ip cidr) cidr
            (.node p0 bits c l r) .empty
      else if bits.getD (commonBits bits ip) false then
        .node none (maskBits ip (commonBits bits ip)) (commonBits bits ip)
          (.node (some peer) (maskBits ip cidr) cidr .empty .empty)
          (.node p0 bits c l r)
      else
        .node none (maskBits ip (commonBits bits ip)) (commonBits bits ip)
          (.node p0 bits c l r)
          (.node (some peer) (maskBits ip cidr) cidr .empty .empty)
      := rfl

theorem take_succ_eq : ∀ (ip : List Bool) (c : Nat), c < ip.length →
    ip.take (c+1) = ip.take c ++ [ip.getD c false]
  | [], c, h => by simp at h
  | x :: xs, 0, _ => by simp [List.getD]
  | x :: xs, c + 1, h => by
    have ih := take_succ_eq xs c (by simpa using h)
    show x :: xs.take (c + 1) = x :: xs.take c ++ [xs.getD c false]
    rw [List.cons_append, ih]

theorem find_short (p0 : Option Nat) (bits : List Bool) (c : Nat)
    (l r : Trie) (key : List Bool) (h : key.length < c) :
    trieFind (.node p0 bits c l r) key = none := by
  rw [trieFind_node, if_neg (by rintro ⟨h1, _⟩; omega),
    if_neg (by rintro ⟨h1, _⟩; omega)]

theorem find_take_ne (p0 : Option Nat) (bits : List Bool) (c : Nat)
    (l r : Trie) (key : List Bool) (i : Nat) (hi : i ≤ c)
    (hne : key.take i ≠ bits.take i) :
    trieFind (.node p0 bits c l r) key = none := by
  rw [trieFind_node, if_neg ?e1, if_neg ?e2]
  case e1 =>
    rintro ⟨hlen, hkey⟩
    apply hne
    rw [hkey, List.take_take, min_eq_left hi]
  case e2 =>
    rintro ⟨hc1, hc2⟩
    apply hne
    have h1 : List.take i key = List.take i (List.take c key) := by
      rw [List.take_take, min_eq_left hi]
    have h2 : List.take i bits = List.take i (List.take c bits) := by
      rw [List.take_take, min_eq_left hi]
    rw [h1, h2, hc2]

theorem find_bit_ne (p0 : Option Nat) (bits : List Bool) (c : Nat)
    (l r : Trie) (key : List Bool) (i : Nat) (hi : i < c)
    (hne : key.getD i false ≠ bits.getD i false) :
    trieFind (.node p0 bits c l r) key = none := by
  rw [trieFind_node, if_neg ?e1, if_neg ?e2]
  case e1 =>
    rintro ⟨hlen, hkey⟩
    apply hne
    rw [hkey, getD_take bits c i hi]
  case e2 =>
    rintro ⟨hc1, hc2⟩
    apply hne
    have := congrArg (fun (s : List Bool) => s.getD i false) hc2
    simp only at this
    rw [getD_take bits c i hi, getD_take key c i hi] at this
    exact this.symm

theorem WFc_leaf (L : Nat) (ctx ip : List Bool) (cidr peer : Nat)
    (hip : ip.length = L) (hcidr : cidr ≤ L) (hctx : ctx.length ≤ cidr)
    (htake : ip.take ctx.length = ctx) :
    WFc L ctx (.node (some peer) (maskBits ip cidr) cidr .empty .empty)
    := by
  refine ⟨by rw [maskBits_length]; exact hip, hcidr, hctx, ?_, ?_,
    trivial, trivial⟩
  · rw [take_maskBits _ _ _ (by omega), htake]
  · intro i hi
    exact getD_maskBits_ge ip cidr i hi

theorem trieFind_leaf (L : Nat) (ip : List Bool) (cidr peer : Nat)
    (key : List Bool) (hip : ip.length = L) (hcidr : cidr ≤ L) :
    trieFind (.node (some peer) (maskBits ip cidr) cidr .empty .empty) key
      = if key = ip.take cidr then some peer else none := by
  rw [trieFind_node, take_maskBits_self]
  by_cases hk : key = ip.take cidr
  · rw [if_pos ⟨by rw [hk, List.length_take]; omega, hk⟩, if_pos hk]
  · rw [if_neg (fun h => hk h.2), if_neg hk]
    split_ifs <;> rfl

theorem length_take_append_one (bits : List Bool) (c : Nat) (b : Bool)
    (h : c ≤ bits.length) : (bits.take c ++ [b]).length = c + 1 := by
  rw [List.length_append, List.length_take, List.length_singleton]
  omega

theorem getD_append_length (xs : List Bool) (b : Bool) :
    (xs ++ [b]).getD xs.length false = b := by
  induction xs with
  | nil => rfl
  | cons x xs ih => simpa [List.getD] using ih

/-- The well-formedness context can be shortened to any of its
prefixes. -/
theorem WFc_weaken (L : Nat) (t : Trie) (ctx ctx' : List Bool)
    (hwf : WFc L ctx t) (hlen : ctx'.length ≤ ctx.length)
    (htake : ctx.take ctx'.length = ctx') : WFc L ctx' t := by
  cases t with
  | empty => trivial
  | node p bits c l r =>
    obtain ⟨hblen, hcL, hctxc, hctxtake, hmask, hwfl, hwfr⟩ := hwf
    refine ⟨hblen, hcL, by omega, ?_, hmask, hwfl, hwfr⟩
    have h1 : bits.take ctx'.length = (bits.take ctx.length).take
        ctx'.length := by
      rw [List.take_take, min_eq_left hlen]
    rw [h1, hctxtake, htake]

theorem ctx_child_take (bits ctx : List Bool) (c : Nat) (b : Bool)
    (hcb : c ≤ bits.length) (hlc : ctx.length ≤ c)
    (ht : bits.take ctx.length = ctx) :
    (bits.take c ++ [b]).take ctx.length = ctx := by
  rw [List.take_append_of_le_length (by rw [List.length_take]; omega),
    List.take_take, min_eq_left hlc, ht]

theorem not_extends_bit (bits key : List Bool) (c : Nat) (b : Bool)
    (hcb : c ≤ bits.length) (hbit : key.getD c false ≠ b) :
    ¬((bits.take c ++ [b]).length ≤ key.length ∧
      key.take (bits.take c ++ [b]).length = bits.take c ++ [b]) := by
  rintro ⟨h1, h2⟩
  rw [length_take_append_one bits c b hcb] at h1 h2
  have hg := congrArg (fun (s : List Bool) => s.getD c false) h2
  simp only at hg
  rw [getD_take key (c + 1) c (by omega)] at hg
  have hlast := getD_append_length (bits.take c) b
  rw [List.length_take, min_eq_left hcb] at hlast
  exact hbit (hg.trans hlast)

theorem not_extends_take (bits key : List Bool) (c : Nat) (b : Bool)
    (hcb : c ≤ bits.length) (hne : key.take c ≠ bits.take c) :
    ¬((bits.take c ++ [b]).length ≤ key.length ∧
      key.take (bits.take c ++ [b]).length = bits.take c ++ [b]) := by
  rintro ⟨h1, h2⟩
  rw [length_take_append_one bits c b hcb] at h2
  apply hne
  have h3 := congrArg (List.take c) h2
  rw [List.take_take, min_eq_left (by omega),
    List.take_append_of_le_length (by rw [List.length_take]; omega),
    List.take_take, min_self] at h3
  exact h3

theorem not_extends_len (bits key : List Bool) (c : Nat) (b : Bool)
    (hcb : c ≤ bits.length) (hlen : key.length ≤ c) :
    ¬((bits.take c ++ [b]).length ≤ key.length ∧
      key.take (bits.take c ++ [b]).length = bits.take c ++ [b]) := by
  rintro ⟨h1, _⟩
  rw [length_take_append_one bits c b hcb] at h1
  omega

/-- Replacing the children of a node by pointwise-`trieFind`-equal ones
(on the side the key routes to) does not change `trieFind`. -/
theorem trieFind_child_congr (p0 : Option Nat) (bits : List Bool)
    (c : Nat) (l r l' r' : Trie) (key : List Bool)
    (hl : key.getD c false = false → trieFind l key = trieFind l' key)
    (hr : key.getD c false = true → trieFind r key = trieFind r' key) :
    trieFind (.node p0 bits c l r) key =
      trieFind (.node p0 bits c l' r') key := by
  rw [trieFind_node, trieFind_node]
  by_cases hex : key.length = c ∧ key = bits.take c
  · rw [if_pos hex, if_pos hex]
  · rw [if_neg hex, if_neg hex]
    by_cases hro : c < key.length ∧ bits.take c = key.take c
    · rw [if_pos hro, if_pos hro]
      cases hkb : key.getD c false
      · rw [if_neg (by simp), if_neg (by simp), hl hkb]
      · rw [if_pos rfl, if_pos rfl, hr hkb]
    · rw [if_neg hro, if_neg hro]

/-- `trieFind` through a node with an empty left child. -/
theorem find_node_right (L : Nat) (p0 : Option Nat) (bits : List Bool)
    (c : Nat) (r : Trie) (key : List Bool) (hcb : c ≤ bits.length)
    (hwfr : WFc L (bits.take c ++ [true]) r) :
    trieFind (.node p0 bits c .empty r) key =
      if key.length = c ∧ key = bits.take c then p0
      else trieFind r key := by
  rw [trieFind_node]
  by_cases hex : key.length = c ∧ key = bits.take c
  · rw [if_pos hex, if_pos hex]
  · rw [if_neg hex, if_neg hex]
    by_cases hro : c < key.length ∧ bits.take c = key.take c
    · rw [if_pos hro]
      cases hkb : key.getD c false
      · rw [if_neg (by simp)]
        exact (find_none_of_not_extends L r (bits.take c ++ [true]) key
          hwfr (not_extends_bit bits key c true hcb (by rw [hkb]; simp))).symm
      · rw [if_pos rfl]
    · rw [if_neg hro]
      rcases Nat.lt_or_ge c key.length with h1 | h1
      · exact (find_none_of_not_extends L r (bits.take c ++ [true]) key
          hwfr (not_extends_take bits key c true hcb
            (fun h => hro ⟨h1, h.symm⟩))).symm
      · exact (find_none_of_not_extends L r (bits.take c ++ [true]) key
          hwfr (not_extends_len bits key c true hcb h1)).symm

/-- `trieFind` through a node with an empty right child. -/
theorem find_node_left (L : Nat) (p0 : Option Nat) (bits : List Bool)
    (c : Nat) (l : Trie) (key : List Bool) (hcb : c ≤ bits.length)
    (hwfl : WFc L (bits.take c ++ [false]) l) :
    trieFind (.node p0 bits c l .empty) key =
      if key.length = c ∧ key = bits.take c then p0
      else trieFind l key := by
  rw [trieFind_node]
  by_cases hex : key.length = c ∧ key = bits.take c
  · rw [if_pos hex, if_pos hex]
  · rw [if_neg hex, if_neg hex]
    by_cases hro : c < key.length ∧ bits.take c = key.take c
    · rw [if_pos hro]
      cases hkb : key.getD c false
      · rw [if_neg (by simp)]
      · rw [if_pos rfl]
        exact (find_none_of_not_extends L l (bits.take c ++ [false]) key
          hwfl (not_extends_bit bits key c false hcb (by rw [hkb]; simp))).symm
    · rw [if_neg hro]
      rcases Nat.lt_or_ge c key.length with h1 | h1
      · exact (find_none_of_not_extends L l (bits.take c ++ [false]) key
          hwfl (not_extends_take bits key c false hcb
            (fun h => hro ⟨h1, h.symm⟩))).symm
      · exact (find_none_of_not_extends L l (bits.take c ++ [false]) key
          hwfl (not_extends_len bits key c false hcb h1)).symm

/-- `insert` preserves the trie invariant. -/
theorem trieInsert_WFc (L : Nat) : ∀ (t : Trie) (ctx ip : List Bool)
    (cidr peer : Nat), WFc L ctx t → ip.length = L → cidr ≤ L →
    ctx.length ≤ cidr → ip.take ctx.length = ctx →
    WFc L ctx (trieInsert t ip cidr peer)
  | .empty, ctx, ip, cidr, peer, _, hip, hcidr, hctx, htake =>
    WFc_leaf L ctx ip cidr peer hip hcidr hctx htake
  | .node p0 bits c l r, ctx, ip, cidr, peer, hwf, hip, hcidr, hctx,
    htake => by
    obtain ⟨hblen, hcL, hctxc, hctxtake, hmask, hwfl, hwfr⟩ := hwf
    rw [trieInsert_node]
    by_cases hg : c ≤ cidr ∧ c ≤ commonBits bits ip
    · rw [if_pos hg]
      have htk : bits.take c = ip.take c := commonBits_take bits ip c hg.2
      by_cases he : c = cidr
      · rw [if_pos he]
        exact ⟨hblen, hcL, hctxc, hctxtake, hmask, hwfl, hwfr⟩
      · rw [if_neg he]
        have hclt : c < cidr := lt_of_le_of_ne hg.1 he
        cases hbit : ip.getD c false
        · rw [if_neg (by simp)]
          refine ⟨hblen, hcL, hctxc, hctxtake, hmask, ?_, hwfr⟩
          refine trieInsert_WFc L l (bits.take c ++ [false]) ip cidr peer
            hwfl hip hcidr ?_ ?_
          · rw [length_take_append_one bits c false (by omega)]
            omega
          · rw [length_take_append_one bits c false (by omega),
              take_succ_eq ip c (by omega), hbit, ← htk]
        · rw [if_pos rfl]
          refine ⟨hblen, hcL, hctxc, hctxtake, hmask, hwfl, ?_⟩
          refine trieInsert_WFc L r (bits.take c ++ [true]) ip cidr peer
            hwfr hip hcidr ?_ ?_
          · rw [length_take_append_one bits c true (by omega)]
            omega
          · rw [length_take_append_one bits c true (by omega),
              take_succ_eq ip c (by omega), hbit, ← htk]
    · rw [if_neg hg]
      by_cases hd : cidr ≤ commonBits bits ip
      · rw [if_pos hd]
        have hclt : cidr < c := by
          by_contra hcon
          push_neg at hcon
          exact hg ⟨hcon, le_trans hcon hd⟩
        have htkc : bits.take cidr = ip.take cidr :=
          commonBits_take bits ip cidr hd
        cases hbb : bits.getD cidr false
        · rw [if_neg (by simp)]
          refine ⟨by rw [maskBits_length]; exact hip, hcidr, hctx, ?_,
            fun i hi => getD_maskBits_ge ip cidr i hi, ?_, trivial⟩
          · rw [take_maskBits ip cidr ctx.length hctx, htake]
          · rw [take_maskBits_self]
            refine ⟨hblen, hcL, ?_, ?_, hmask, hwfl, hwfr⟩
            · rw [length_take_append_one ip cidr false (by omega)]
              omega
            · rw [length_take_append_one ip cidr false (by omega),
                take_succ_eq bits cidr (by omega), hbb, htkc]
        · rw [if_pos rfl]
          refine ⟨by rw [maskBits_length]; exact hip, hcidr, hctx, ?_,
            fun i hi => getD_maskBits_ge ip cidr i hi, trivial, ?_⟩
          · rw [take_maskBits ip cidr ctx.length hctx, htake]
          · rw [take_maskBits_self]
            refine ⟨hblen, hcL, ?_, ?_, hmask, hwfl, hwfr⟩
            · rw [length_take_append_one ip cidr true (by omega)]
              omega
            · rw [length_take_append_one ip cidr true (by omega),
                take_succ_eq bits cidr (by omega), hbb, htkc]
      · rw [if_neg hd]
        push_neg at hd
        have hcbc : commonBits bits ip < c := by
          by_contra hcon
          push_neg at hcon
          exact hg ⟨by omega, hcon⟩
        have hctxcb : ctx.length ≤ commonBits bits ip :=
          le_commonBits bits ip ctx.length (by omega) (by omega)
            (hctxtake.trans htake.symm)
        have htkcb : bits.take (commonBits bits ip) =
            ip.take (commonBits bits ip) := commonBits_take bits ip _ le_rfl
        have hdis := getD_commonBits_ne bits ip (by omega) (by omega)
        cases hbb : bits.getD (commonBits bits ip) false
        · have hipb : ip.getD (commonBits bits ip) false = true := by
            cases hx : ip.getD (commonBits bits ip) false
            · exact absurd (hbb.trans hx.symm) hdis
            · rfl
          rw [if_neg (by simp)]
          refine ⟨by rw [maskBits_length]; exact hip, by omega, hctxcb, ?_,
            fun i hi => getD_maskBits_ge ip _ i hi, ?_, ?_⟩
          · rw [take_maskBits ip (commonBits bits ip) ctx.length hctxcb,
              htake]
          · rw [take_maskBits_self]
            refine ⟨hblen, hcL, ?_, ?_, hmask, hwfl, hwfr⟩
            · rw [length_take_append_one ip (commonBits bits ip) false
                (by omega)]
              omega
            · rw [length_take_append_one ip (commonBits bits ip) false
                (by omega), take_succ_eq bits (commonBits bits ip)
                (by omega), hbb, htkcb]
          · rw [take_maskBits_self]
            refine WFc_leaf L _ ip cidr peer hip hcidr ?_ ?_
            · rw [length_take_append_one ip (commonBits bits ip) true
                (by omega)]
              omega
            · rw [length_take_append_one ip (commonBits bits ip) true
                (by omega), take_succ_eq ip (commonBits bits ip)
                (by omega), hipb]
        · have hipb : ip.getD (commonBits bits ip) false = false := by
            cases hx : ip.getD (commonBits bits ip) false
            · rfl
            · exact absurd (hbb.trans hx.symm) hdis
          rw [if_pos rfl]
          refine ⟨by rw [maskBits_length]; exact hip, by omega, hctxcb, ?_,
            fun i hi => getD_maskBits_ge ip _ i hi, ?_, ?_⟩
          · rw [take_maskBits ip (commonBits bits ip) ctx.length hctxcb,
              htake]
          · rw [take_maskBits_self]
            refine WFc_leaf L _ ip cidr peer hip hcidr ?_ ?_
            · rw [length_take_append_one ip (commonBits bits ip) false
                (by omega)]
              omega
            · rw [length_take_append_one ip (commonBits bits ip) false
                (by omega), take_succ_eq ip (commonBits bits ip)
                (by omega), hipb]
          · rw [take_maskBits_self]
            refine ⟨hblen, hcL, ?_, ?_, hmask, hwfl, hwfr⟩
            · rw [length_take_append_one ip (commonBits bits ip) true
                (by omega)]
              omega
            · rw [length_take_append_one ip (commonBits bits ip) true
                (by omega), take_succ_eq bits (commonBits bits ip)
                (by omega), hbb, htkcb]

/-- `insert` updates exactly the binding of the inserted prefix in the
exact-prefix view. -/
theorem trieInsert_find (L : Nat) : ∀ (t : Trie) (ctx ip : List Bool)
    (cidr peer : Nat) (key : List Bool), WFc L ctx t → ip.length = L →
    cidr ≤ L →
    trieFind (trieInsert t ip cidr peer) key =
      if key = ip.take cidr then some peer else trieFind t key
  | .empty, ctx, ip, cidr, peer, key, _, hip, hcidr => by
    show trieFind (.node (some peer) (maskBits ip cidr) cidr .empty
      .empty) key = _
    rw [trieFind_leaf L ip cidr peer key hip hcidr]
    rfl
  | .node p0 bits c l r, ctx, ip, cidr, peer, key, hwf, hip, hcidr => by
    obtain ⟨hblen, hcL, hctxc, hctxtake, hmask, hwfl, hwfr⟩ := hwf
    rw [trieInsert_node]
    by_cases hg : c ≤ cidr ∧ c ≤ commonBits bits ip
    · rw [if_pos hg]
      have htk : bits.take c = ip.take c := commonBits_take bits ip c hg.2
      by_cases he : c = cidr
      · rw [if_pos he]
        have hiff : (key.length = c ∧ key = bits.take c) ↔
            key = ip.take cidr := by
          constructor
          · rintro ⟨_, h2⟩
            rw [h2, htk, he]
          · rintro rfl
            refine ⟨by rw [List.length_take]; omega, ?_⟩
            rw [htk, he]
        by_cases hk : key = ip.take cidr
        · rw [if_pos hk, trieFind_node, if_pos (hiff.mpr hk)]
        · rw [if_neg hk, trieFind_node, trieFind_node,
            if_neg (fun h => hk (hiff.mp h)),
            if_neg (fun h => hk (hiff.mp h))]
      · rw [if_neg he]
        have hclt : c < cidr := lt_of_le_of_ne hg.1 he
        cases hbit : ip.getD c false
        · rw [if_neg (by simp)]
          by_cases hk : key = ip.take cidr
          · rw [if_pos hk, trieFind_node,
              if_neg (by
                rintro ⟨h1, _⟩
                rw [hk, List.length_take] at h1
                omega),
              if_pos ⟨by rw [hk, List.length_take]; omega,
                by rw [hk, List.take_take, min_eq_left (le_of_lt hclt),
                  htk]⟩,
              if_neg (by rw [hk, getD_take ip cidr c hclt, hbit]; simp),
              trieInsert_find L l (bits.take c ++ [false]) ip cidr peer
                key hwfl hip hcidr, if_pos hk]
          · rw [if_neg hk]
            exact trieFind_child_congr p0 bits c
              (trieInsert l ip cidr peer) r l r key
              (fun _ => by
                rw [trieInsert_find L l (bits.take c ++ [false]) ip cidr
                  peer key hwfl hip hcidr, if_neg hk])
              (fun _ => rfl)
        · rw [if_pos rfl]
          by_cases hk : key = ip.take cidr
          · rw [if_pos hk, trieFind_node,
              if_neg (by
                rintro ⟨h1, _⟩
                rw [hk, List.length_take] at h1
                omega),
              if_pos ⟨by rw [hk, List.length_take]; omega,
                by rw [hk, List.take_take, min_eq_left (le_of_lt hclt),
                  htk]⟩,
              if_pos (by rw [hk, getD_take ip cidr c hclt, hbit]),
              trieInsert_find L r (bits.take c ++ [true]) ip cidr peer
                key hwfr hip hcidr, if_pos hk]
          · rw [if_neg hk]
            exact trieFind_child_congr p0 bits c l
              (trieInsert r ip cidr peer) l r key (fun _ => rfl)
              (fun _ => by
                rw [trieInsert_find L r (bits.take c ++ [true]) ip cidr
                  peer key hwfr hip hcidr, if_neg hk])
    · rw [if_neg hg]
      by_cases hd : cidr ≤ commonBits bits ip
      · rw [if_pos hd]
        have hclt : cidr < c := by
          by_contra hcon
          push_neg at hcon
          exact hg ⟨hcon, le_trans hcon hd⟩
        have htkc : bits.take cidr = ip.take cidr :=
          commonBits_take bits ip cidr hd
        cases hbb : bits.getD cidr false
        · -- the existing node keeps the 0 side, the new node is above it
          rw [if_neg (by simp), trieFind_node, take_maskBits_self]
          by_cases hk : key = ip.take cidr
          · rw [if_pos ⟨by rw [hk, List.length_take]; omega, hk⟩,
              if_pos hk]
          · rw [if_neg (fun h => hk h.2), if_neg hk]
            by_cases hro : cidr < key.length ∧
                ip.take cidr = key.take cidr
            · rw [if_pos hro]
              cases hkb : key.getD cidr false
              · rw [if_neg (by simp)]
              · rw [if_pos rfl]
                exact (find_bit_ne p0 bits c l r key cidr hclt
                  (by rw [hkb, hbb]; simp)).symm
            · rw [if_neg hro]
              rcases Nat.lt_or_ge cidr key.length with h1 | h1
              · push_neg at hro
                exact (find_take_ne p0 bits c l r key cidr
                  (le_of_lt hclt)
                  (fun h => hro h1 (h.trans htkc).symm)).symm
              · exact (find_short p0 bits c l r key (by omega)).symm
        · rw [if_pos rfl, trieFind_node, take_maskBits_self]
          by_cases hk : key = ip.take cidr
          · rw [if_pos ⟨by rw [hk, List.length_take]; omega, hk⟩,
              if_pos hk]
          · rw [if_neg (fun h => hk h.2), if_neg hk]
            by_cases hro : cidr < key.length ∧
                ip.take cidr = key.take cidr
            · rw [if_pos hro]
              cases hkb : key.getD cidr false
              · rw [if_neg (by simp)]
                exact (find_bit_ne p0 bits c l r key cidr hclt
                  (by rw [hkb, hbb]; simp)).symm
              · rw [if_pos rfl]
            · rw [if_neg hro]
              rcases Nat.lt_or_ge cidr key.length with h1 | h1
              · push_neg at hro
                exact (find_take_ne p0 bits c l r key cidr
                  (le_of_lt hclt)
                  (fun h => hro h1 (h.trans htkc).symm)).symm
              · exact (find_short p0 bits c l r key (by omega)).symm
      · rw [if_neg hd]
        push_neg at hd
        have hcbc : commonBits bits ip < c := by
          by_contra hcon
          push_neg at hcon
          exact hg ⟨by omega, hcon⟩
        have htkcb : bits.take (commonBits bits ip) =
            ip.take (commonBits bits ip) := commonBits_take bits ip _
          le_rfl
        have hdis := getD_commonBits_ne bits ip (by omega) (by omega)
        cases hbb : bits.getD (commonBits bits ip) false
        · -- split glue: existing node left, new leaf right
          have hipb : ip.getD (commonBits bits ip) false = true := by
            cases hx : ip.getD (commonBits bits ip) false
            · exact absurd (hbb.trans hx.symm) hdis
            · rfl
          rw [if_neg (by simp), trieFind_node, take_maskBits_self]
          by_cases hex : key.length = commonBits bits ip ∧
              key = ip.take (commonBits bits ip)
          · rw [if_pos hex,
              if_neg (show ¬key = ip.take cidr from fun hk => by
                rw [hk, List.length_take] at hex
                omega),
              find_short p0 bits c l r key (by omega)]
          · rw [if_neg hex]
            by_cases hro : commonBits bits ip < key.length ∧
                ip.take (commonBits bits ip) =
                  key.take (commonBits bits ip)
            · rw [if_pos hro]
              cases hkb : key.getD (commonBits bits ip) false
              · rw [if_neg (by simp),
                  if_neg (show ¬key = ip.take cidr from fun hk => by
                    rw [hk, getD_take ip cidr _ hd, hipb] at hkb
                    exact Bool.noConfusion hkb)]
              · rw [if_pos rfl, trieFind_leaf L ip cidr peer key hip
                  hcidr]
                by_cases hk : key = ip.take cidr
                · rw [if_pos hk, if_pos hk]
                · rw [if_neg hk, if_neg hk,
                    find_bit_ne p0 bits c l r key _ hcbc
                      (by rw [hkb, hbb]; simp)]
            · rw [if_neg hro,
                if_neg (show ¬key = ip.take cidr from fun hk => hro
                  ⟨by rw [hk, List.length_take]; omega,
                   by rw [hk, List.take_take, min_eq_left
                     (le_of_lt hd)]⟩)]
              rcases Nat.lt_or_ge (commonBits bits ip) key.length
                with h1 | h1
              · push_neg at hro
                rw [find_take_ne p0 bits c l r key _ (le_of_lt hcbc)
                  (fun h => hro h1 (h.trans htkcb).symm)]
              · rw [find_short p0 bits c l r key (by omega)]
        · -- split glue: new leaf left, existing node right
          have hipb : ip.getD (commonBits bits ip) false = false := by
            cases hx : ip.getD (commonBits bits ip) false
            · rfl
            · exact absurd (hbb.trans hx.symm) hdis
          rw [if_pos rfl, trieFind_node, take_maskBits_self]
          by_cases hex : key.length = commonBits bits ip ∧
              key = ip.take (commonBits bits ip)
          · rw [if_pos hex,
              if_neg (show ¬key = ip.take cidr from fun hk => by
                rw [hk, List.length_take] at hex
                omega),
              find_short p0 bits c l r key (by omega)]
          · rw [if_neg hex]
            by_cases hro : commonBits bits ip < key.length ∧
                ip.take (commonBits bits ip) =
                  key.take (commonBits bits ip)
            · rw [if_pos hro]
              cases hkb : key.getD (commonBits bits ip) false
              · rw [if_neg (by simp), trieFind_leaf L ip cidr peer key
                  hip hcidr]
                by_cases hk : key = ip.take cidr
                · rw [if_pos hk, if_pos hk]
                · rw [if_neg hk, if_neg hk,
                    find_bit_ne p0 bits c l r key _ hcbc
                      (by rw [hkb, hbb]; simp)]
              · rw [if_pos rfl,
                  if_neg (show ¬key = ip.take cidr from fun hk => by
                    rw [hk, getD_take ip cidr _ hd, hipb] at hkb
                    exact Bool.noConfusion hkb)]
            · rw [if_neg hro,
                if_neg (show ¬key = ip.take cidr from fun hk => hro
                  ⟨by rw [hk, List.length_take]; omega,
                   by rw [hk, List.take_take, min_eq_left
                     (le_of_lt hd)]⟩)]
              rcases Nat.lt_or_ge (commonBits bits ip) key.length
                with h1 | h1
              · push_neg at hro
                rw [find_take_ne p0 bits c l r key _ (le_of_lt hcbc)
                  (fun h => hro h1 (h.trans htkcb).symm)]
              · rw [find_short p0 bits c l r key (by omega)]

/-- One-step equation for `trieRemove` at a node. -/
theorem trieRemove_node (p : Option Nat) (bits : List Bool) (c : Nat)
    (l r : Trie) (ip : List Bool) (cidr peer : Nat) :
    trieRemove (.node p bits c l r) ip cidr peer =
      if c ≤ cidr ∧ commonBits bits ip ≥ c then
        if c = cidr then
          if p = some peer then
            match l, r with
            | .empty, .empty => (.empty, true)
            | .empty, child => (child, false)
            | child, .empty => (child, false)
            | cl, cr => (.node none bits c cl cr, false)
          else (.node p bits c l r, false)
        else if ip.getD c false then
          if (trieRemove r ip cidr peer).2 ∧ p = none then (l, false)
          else (.node p bits c l (trieRemove r ip cidr peer).1, false)
        else
          if (trieRemove l ip cidr peer).2 ∧ p = none then (r, false)
          else (.node p bits c (trieRemove l ip cidr peer).1 r, false)
      else (.node p bits c l r, false) := rfl

/-- The removal flag reports that the whole subtree was a single leaf
holding exactly the removed binding, and vanished. -/
theorem trieRemove_flag (L : Nat) (t : Trie) (ip : List Bool)
    (cidr peer : Nat) (hip : ip.length = L) (hcidr : cidr ≤ L)
    (hflag : (trieRemove t ip cidr peer).2 = true) :
    (trieRemove t ip cidr peer).1 = Trie.empty ∧
    ∀ key, trieFind t key =
      if key = ip.take cidr then some peer else none := by
  cases t with
  | empty => exact Bool.noConfusion hflag
  | node p bits c l r =>
    rw [trieRemove_node] at hflag ⊢
    by_cases hg : c ≤ cidr ∧ commonBits bits ip ≥ c
    case neg =>
      rw [if_neg hg] at hflag
      exact Bool.noConfusion hflag
    case pos =>
      rw [if_pos hg] at hflag ⊢
      by_cases he : c = cidr
      case neg =>
        rw [if_neg he] at hflag
        cases hbit : ip.getD c false
        · rw [if_neg (by rw [hbit]; simp)] at hflag
          by_cases hcol : (trieRemove l ip cidr peer).2 = true ∧ p = none
          · rw [if_pos hcol] at hflag
            exact Bool.noConfusion hflag
          · rw [if_neg hcol] at hflag
            exact Bool.noConfusion hflag
        · rw [if_pos hbit] at hflag
          by_cases hcol : (trieRemove r ip cidr peer).2 = true ∧ p = none
          · rw [if_pos hcol] at hflag
            exact Bool.noConfusion hflag
          · rw [if_neg hcol] at hflag
            exact Bool.noConfusion hflag
      case pos =>
        rw [if_pos he] at hflag ⊢
        by_cases hp : p = some peer
        case neg =>
          rw [if_neg hp] at hflag
          exact Bool.noConfusion hflag
        case pos =>
          rw [if_pos hp] at hflag ⊢
          cases l with
          | node la lb lc ld le => cases r <;> exact Bool.noConfusion hflag
          | empty =>
            cases r with
            | node ra rb rc rd re => exact Bool.noConfusion hflag
            | empty =>
              refine ⟨rfl, ?_⟩
              intro key
              have htkc : bits.take c = ip.take cidr :=
                (commonBits_take bits ip c hg.2).trans (by rw [he])
              rw [trieFind_node]
              by_cases hk : key = ip.take cidr
              · rw [if_pos ⟨by rw [hk, List.length_take]; omega,
                  hk.trans htkc.symm⟩, hp, if_pos hk]
              · rw [if_neg (fun h => hk (h.2.trans htkc)), if_neg hk]
                split_ifs <;> rfl

/-- `remove` preserves the trie invariant. -/
theorem trieRemove_WFc (L : Nat) : ∀ (t : Trie) (ctx ip : List Bool)
    (cidr peer : Nat), WFc L ctx t →
    WFc L ctx (trieRemove t ip cidr peer).1
  | .empty, ctx, ip, cidr, peer, _ => trivial
  | .node p bits c l r, ctx, ip, cidr, peer, hwf => by
    obtain ⟨hblen, hcL, hctxc, hctxtake, hmask, hwfl, hwfr⟩ := hwf
    rw [trieRemove_node]
    by_cases hg : c ≤ cidr ∧ commonBits bits ip ≥ c
    case neg =>
      rw [if_neg hg]
      exact ⟨hblen, hcL, hctxc, hctxtake, hmask, hwfl, hwfr⟩
    case pos =>
      rw [if_pos hg]
      by_cases he : c = cidr
      case neg =>
        rw [if_neg he]
        cases hbit : ip.getD c false
        · rw [if_neg (by simp)]
          by_cases hcol : (trieRemove l ip cidr peer).2 = true ∧ p = none
          · rw [if_pos hcol]
            exact WFc_weaken L r (bits.take c ++ [true]) ctx hwfr
              (by rw [length_take_append_one bits c true (by omega)]
                  omega)
              (ctx_child_take bits ctx c true (by omega) hctxc hctxtake)
          · rw [if_neg hcol]
            exact ⟨hblen, hcL, hctxc, hctxtake, hmask,
              trieRemove_WFc L l (bits.take c ++ [false]) ip cidr peer
                hwfl, hwfr⟩
        · rw [if_pos rfl]
          by_cases hcol : (trieRemove r ip cidr peer).2 = true ∧ p = none
          · rw [if_pos hcol]
            exact WFc_weaken L l (bits.take c ++ [false]) ctx hwfl
              (by rw [length_take_append_one bits c false (by omega)]
                  omega)
              (ctx_child_take bits ctx c false (by omega) hctxc hctxtake)
          · rw [if_neg hcol]
            exact ⟨hblen, hcL, hctxc, hctxtake, hmask, hwfl,
              trieRemove_WFc L r (bits.take c ++ [true]) ip cidr peer
                hwfr⟩
      case pos =>
        rw [if_pos he]
        by_cases hp : p = some peer
        case neg =>
          rw [if_neg hp]
          exact ⟨hblen, hcL, hctxc, hctxtake, hmask, hwfl, hwfr⟩
        case pos =>
          rw [if_pos hp]
          cases l with
          | empty =>
            cases r with
            | empty => exact trivial
            | node ra rb rc rd re =>
              exact WFc_weaken L (Trie.node ra rb rc rd re)
                (bits.take c ++ [true]) ctx hwfr
                (by rw [length_take_append_one bits c true (by omega)]
                    omega)
                (ctx_child_take bits ctx c true (by omega) hctxc
                  hctxtake)
          | node la lb lc ld le =>
            cases r with
            | empty =>
              exact WFc_weaken L (Trie.node la lb lc ld le)
                (bits.take c ++ [false]) ctx hwfl
                (by rw [length_take_append_one bits c false (by omega)]
                    omega)
                (ctx_child_take bits ctx c false (by omega) hctxc
                  hctxtake)
            | node ra rb rc rd re =>
              exact ⟨hblen, hcL, hctxc, hctxtake, hmask, hwfl, hwfr⟩

/-- `remove` deletes exactly the binding of the removed prefix when it
is bound to the removed peer, in the exact-prefix view. -/
theorem trieRemove_find (L : Nat) : ∀ (t : Trie) (ctx ip : List Bool)
    (cidr peer : Nat) (key : List Bool), WFc L ctx t → ip.length = L →
    cidr ≤ L →
    trieFind (trieRemove t ip cidr peer).1 key =
      if key = ip.take cidr ∧ trieFind t key = some peer then none
      else trieFind t key
  | .empty, ctx, ip, cidr, peer, key, _, hip, hcidr => by
    rw [if_neg (fun h => Option.noConfusion h.2)]
    rfl
  | .node p bits c l r, ctx, ip, cidr, peer, key, hwf, hip, hcidr => by
    obtain ⟨hblen, hcL, hctxc, hctxtake, hmask, hwfl, hwfr⟩ := hwf
    rw [trieRemove_node]
    by_cases hg : c ≤ cidr ∧ commonBits bits ip ≥ c
    case neg =>
      rw [if_neg hg]
      have hno : ¬(key = ip.take cidr ∧
          trieFind (Trie.node p bits c l r) key = some peer) := by
        rintro ⟨hk, hfind⟩
        rw [trieFind_node] at hfind
        by_cases hex : key.length = c ∧ key = bits.take c
        · obtain ⟨h1, h2⟩ := hex
          apply hg
          have hceq : c = cidr := by
            rw [hk, List.length_take] at h1
            omega
          refine ⟨le_of_eq hceq, le_commonBits bits ip c (by omega)
            (by omega) ?_⟩
          rw [← h2, hk, hceq]
        · rw [if_neg hex] at hfind
          by_cases hro : c < key.length ∧ bits.take c = key.take c
          · obtain ⟨h1, h2⟩ := hro
            apply hg
            have hkl : key.length = cidr := by
              rw [hk, List.length_take]
              omega
            refine ⟨by omega, le_commonBits bits ip c (by omega)
              (by omega) ?_⟩
            rw [h2, hk, List.take_take, min_eq_left (by omega)]
          · rw [if_neg hro] at hfind
            exact Option.noConfusion hfind
      rw [if_neg hno]
    case pos =>
      rw [if_pos hg]
      have htk : bits.take c = ip.take c := commonBits_take bits ip c hg.2
      by_cases he : c = cidr
      case pos =>
        rw [if_pos he]
        have htkc : bits.take c = ip.take cidr :=
          htk.trans (by rw [he])
        have hiff : ∀ q : List Bool,
            (q.length = c ∧ q = bits.take c) ↔ q = ip.take cidr := by
          intro q
          constructor
          · rintro ⟨_, h2⟩
            exact h2.trans htkc
          · rintro rfl
            exact ⟨by rw [List.length_take]; omega, htkc.symm⟩
        by_cases hp : p = some peer
        case neg =>
          rw [if_neg hp]
          have hno : ¬(key = ip.take cidr ∧
              trieFind (Trie.node p bits c l r) key = some peer) := by
            rintro ⟨hk, hfind⟩
            rw [trieFind_node, if_pos ((hiff key).mpr hk)] at hfind
            exact hp hfind
          rw [if_neg hno]
        case pos =>
          rw [if_pos hp]
          cases l with
          | empty =>
            cases r with
            | empty =>
              show trieFind Trie.empty key = _
              by_cases hk : key = ip.take cidr
              · have hfind : trieFind (Trie.node p bits c Trie.empty
                    Trie.empty) key = some peer := by
                  rw [trieFind_node, if_pos ((hiff key).mpr hk), hp]
                rw [if_pos ⟨hk, hfind⟩]
                rfl
              · rw [if_neg (fun h => hk h.1), trieFind_node,
                  if_neg (fun h => hk ((hiff key).mp h))]
                split_ifs <;> rfl
            | node ra rb rc rd re =>
              show trieFind (Trie.node ra rb rc rd re) key = _
              have hfd := find_node_right L p bits c
                (Trie.node ra rb rc rd re) key (by omega) hwfr
              by_cases hk : key = ip.take cidr
              · rw [if_pos ⟨hk, by
                  rw [hfd, if_pos ((hiff key).mpr hk), hp]⟩]
                exact find_none_of_not_extends L
                  (Trie.node ra rb rc rd re) (bits.take c ++ [true]) key
                  hwfr (not_extends_len bits key c true (by omega)
                    (by rw [hk, List.length_take]; omega))
              · rw [if_neg (fun h => hk h.1), hfd,
                  if_neg (fun h => hk ((hiff key).mp h))]
          | node la lb lc ld le =>
            cases r with
            | empty =>
              show trieFind (Trie.node la lb lc ld le) key = _
              have hfd := find_node_left L p bits c
                (Trie.node la lb lc ld le) key (by omega) hwfl
              by_cases hk : key = ip.take cidr
              · rw [if_pos ⟨hk, by
                  rw [hfd, if_pos ((hiff key).mpr hk), hp]⟩]
                exact find_none_of_not_extends L
                  (Trie.node la lb lc ld le) (bits.take c ++ [false]) key
                  hwfl (not_extends_len bits key c false (by omega)
                    (by rw [hk, List.length_take]; omega))
              · rw [if_neg (fun h => hk h.1), hfd,
                  if_neg (fun h => hk ((hiff key).mp h))]
            | node ra rb rc rd re =>
              show trieFind (Trie.node none bits c
                (Trie.node la lb lc ld le) (Trie.node ra rb rc rd re))
                key = _
              by_cases hk : key = ip.take cidr
              · have h1 : trieFind (Trie.node none bits c
                    (Trie.node la lb lc ld le)
                    (Trie.node ra rb rc rd re)) key = none := by
                  rw [trieFind_node, if_pos ((hiff key).mpr hk)]
                have h2 : trieFind (Trie.node p bits c
                    (Trie.node la lb lc ld le)
                    (Trie.node ra rb rc rd re)) key = some peer := by
                  rw [trieFind_node, if_pos ((hiff key).mpr hk), hp]
                rw [if_pos ⟨hk, h2⟩, h1]
              · rw [if_neg (fun h => hk h.1),
                  trieFind_node none bits c (Trie.node la lb lc ld le)
                    (Trie.node ra rb rc rd re) key,
                  trieFind_node p bits c (Trie.node la lb lc ld le)
                    (Trie.node ra rb rc rd re) key,
                  if_neg (fun h => hk ((hiff key).mp h)),
                  if_neg (fun h => hk ((hiff key).mp h))]
      case neg =>
        rw [if_neg he]
        have hclt : c < cidr := lt_of_le_of_ne hg.1 he
        cases hbit : ip.getD c false
        · -- removal descends into the left child
          rw [if_neg (by simp)]
          have hkc : ∀ _ : key = ip.take cidr,
              key.getD c false = false := by
            intro hk
            rw [hk, getD_take ip cidr c hclt]
            exact hbit
          by_cases hcol : (trieRemove l ip cidr peer).2 = true ∧ p = none
          · rw [if_pos hcol]
            obtain ⟨hEmp, hAll⟩ := trieRemove_flag L l ip cidr peer hip
              hcidr hcol.1
            show trieFind r key = _
            by_cases hk : key = ip.take cidr
            · have hfr : trieFind (Trie.node p bits c l r) key =
                  some peer := by
                rw [trieFind_node,
                  if_neg (by
                    rintro ⟨h1, _⟩
                    rw [hk, List.length_take] at h1
                    omega),
                  if_pos ⟨by rw [hk, List.length_take]; omega,
                    by rw [hk, List.take_take,
                      min_eq_left (le_of_lt hclt), htk]⟩,
                  if_neg (by rw [hkc hk]; simp), hAll key, if_pos hk]
              rw [if_pos ⟨hk, hfr⟩]
              exact find_none_of_not_extends L r (bits.take c ++ [true])
                key hwfr (not_extends_bit bits key c true (by omega)
                  (by rw [hkc hk]; simp))
            · rw [if_neg (fun h => hk h.1)]
              by_cases hex : key.length = c ∧ key = bits.take c
              · rw [show trieFind (Trie.node p bits c l r) key = p from
                  by rw [trieFind_node, if_pos hex], hcol.2]
                exact find_none_of_not_extends L r
                  (bits.take c ++ [true]) key hwfr
                  (not_extends_len bits key c true (by omega)
                    (le_of_eq hex.1))
              · by_cases hro : c < key.length ∧
                    bits.take c = key.take c
                · cases hkb : key.getD c false
                  · rw [show trieFind (Trie.node p bits c l r) key =
                      trieFind l key from by
                        rw [trieFind_node, if_neg hex, if_pos hro,
                          if_neg (by rw [hkb]; simp)],
                      hAll key, if_neg hk]
                    exact find_none_of_not_extends L r
                      (bits.take c ++ [true]) key hwfr
                      (not_extends_bit bits key c true (by omega)
                        (by rw [hkb]; simp))
                  · rw [show trieFind (Trie.node p bits c l r) key =
                      trieFind r key from by
                        rw [trieFind_node, if_neg hex, if_pos hro,
                          if_pos hkb]]
                · rw [show trieFind (Trie.node p bits c l r) key =
                    none from by
                      rw [trieFind_node, if_neg hex, if_neg hro]]
                  rcases Nat.lt_or_ge c key.length with h1 | h1
                  · exact find_none_of_not_extends L r
                      (bits.take c ++ [true]) key hwfr
                      (not_extends_take bits key c true (by omega)
                        (fun h => hro ⟨h1, h.symm⟩))
                  · exact find_none_of_not_extends L r
                      (bits.take c ++ [true]) key hwfr
                      (not_extends_len bits key c true (by omega) h1)
          · rw [if_neg hcol]
            show trieFind (Trie.node p bits c
              (trieRemove l ip cidr peer).1 r) key = _
            have ihl := trieRemove_find L l (bits.take c ++ [false]) ip
              cidr peer key hwfl hip hcidr
            by_cases hex : key.length = c ∧ key = bits.take c
            · rw [show trieFind (Trie.node p bits c
                  (trieRemove l ip cidr peer).1 r) key = p from by
                    rw [trieFind_node, if_pos hex],
                show trieFind (Trie.node p bits c l r) key = p from by
                  rw [trieFind_node, if_pos hex],
                if_neg (by
                  rintro ⟨hk, _⟩
                  rw [hk, List.length_take] at hex
                  omega)]
            · by_cases hro : c < key.length ∧ bits.take c = key.take c
              · cases hkb : key.getD c false
                · rw [show trieFind (Trie.node p bits c
                      (trieRemove l ip cidr peer).1 r) key =
                        trieFind (trieRemove l ip cidr peer).1 key from
                      by rw [trieFind_node, if_neg hex, if_pos hro,
                        if_neg (by rw [hkb]; simp)],
                    show trieFind (Trie.node p bits c l r) key =
                      trieFind l key from by
                        rw [trieFind_node, if_neg hex, if_pos hro,
                          if_neg (by rw [hkb]; simp)],
                    ihl]
                · rw [show trieFind (Trie.node p bits c
                      (trieRemove l ip cidr peer).1 r) key =
                        trieFind r key from by
                      rw [trieFind_node, if_neg hex, if_pos hro,
                        if_pos hkb],
                    show trieFind (Trie.node p bits c l r) key =
                      trieFind r key from by
                        rw [trieFind_node, if_neg hex, if_pos hro,
                          if_pos hkb],
                    if_neg (fun h => by
                      rw [hkc h.1] at hkb
                      exact Bool.noConfusion hkb)]
              · rw [show trieFind (Trie.node p bits c
                    (trieRemove l ip cidr peer).1 r) key = none from by
                      rw [trieFind_node, if_neg hex, if_neg hro],
                  show trieFind (Trie.node p bits c l r) key = none from
                    by rw [trieFind_node, if_neg hex, if_neg hro],
                  if_neg (fun h => Option.noConfusion h.2)]
        · -- removal descends into the right child
          rw [if_pos rfl]
          have hkc : ∀ _ : key = ip.take cidr,
              key.getD c false = true := by
            intro hk
            rw [hk, getD_take ip cidr c hclt]
            exact hbit
          by_cases hcol : (trieRemove r ip cidr peer).2 = true ∧ p = none
          · rw [if_pos hcol]
            obtain ⟨hEmp, hAll⟩ := trieRemove_flag L r ip cidr peer hip
              hcidr hcol.1
            show trieFind l key = _
            by_cases hk : key = ip.take cidr
            · have hfr : trieFind (Trie.node p bits c l r) key =
                  some peer := by
                rw [trieFind_node,
                  if_neg (by
                    rintro ⟨h1, _⟩
                    rw [hk, List.length_take] at h1
                    omega),
                  if_pos ⟨by rw [hk, List.length_take]; omega,
                    by rw [hk, List.take_take,
                      min_eq_left (le_of_lt hclt), htk]⟩,
                  if_pos (hkc hk), hAll key, if_pos hk]
              rw [if_pos ⟨hk, hfr⟩]
              exact find_none_of_not_extends L l (bits.take c ++ [false])
                key hwfl (not_extends_bit bits key c false (by omega)
                  (by rw [hkc hk]; simp))
            · rw [if_neg (fun h => hk h.1)]
              by_cases hex : key.length = c ∧ key = bits.take c
              · rw [show trieFind (Trie.node p bits c l r) key = p from
                  by rw [trieFind_node, if_pos hex], hcol.2]
                exact find_none_of_not_extends L l
                  (bits.take c ++ [false]) key hwfl
                  (not_extends_len bits key c false (by omega)
                    (le_of_eq hex.1))
              · by_cases hro : c < key.length ∧
                    bits.take c = key.take c
                · cases hkb : key.getD c false
                  · rw [show trieFind (Trie.node p bits c l r) key =
                      trieFind l key from by
                        rw [trieFind_node, if_neg hex, if_pos hro,
                          if_neg (by rw [hkb]; simp)]]
                  · rw [show trieFind (Trie.node p bits c l r) key =
                      trieFind r key from by
                        rw [trieFind_node, if_neg hex, if_pos hro,
                          if_pos hkb],
                      hAll key, if_neg hk]
                    exact find_none_of_not_extends L l
                      (bits.take c ++ [false]) key hwfl
                      (not_extends_bit bits key c false (by omega)
                        (by rw [hkb]; simp))
                · rw [show trieFind (Trie.node p bits c l r) key =
                    none from by
                      rw [trieFind_node, if_neg hex, if_neg hro]]
                  rcases Nat.lt_or_ge c key.length with h1 | h1
                  · exact find_none_of_not_extends L l
                      (bits.take c ++ [false]) key hwfl
                      (not_extends_take bits key c false (by omega)
                        (fun h => hro ⟨h1, h.symm⟩))
                  · exact find_none_of_not_extends L l
                      (bits.take c ++ [false]) key hwfl
                      (not_extends_len bits key c false (by omega) h1)
          · rw [if_neg hcol]
            show trieFind (Trie.node p bits c l
              (trieRemove r ip cidr peer).1) key = _
            have ihr := trieRemove_find L r (bits.take c ++ [true]) ip
              cidr peer key hwfr hip hcidr
            by_cases hex : key.length = c ∧ key = bits.take c
            · rw [show trieFind (Trie.node p bits c l
                  (trieRemove r ip cidr peer).1) key = p from by
                    rw [trieFind_node, if_pos hex],
                show trieFind (Trie.node p bits c l r) key = p from by
                  rw [trieFind_node, if_pos hex],
                if_neg (by
                  rintro ⟨hk, _⟩
                  rw [hk, List.length_take] at hex
                  omega)]
            · by_cases hro : c < key.length ∧ bits.take c = key.take c
              · cases hkb : key.getD c false
                · rw [show trieFind (Trie.node p bits c l
                      (trieRemove r ip cidr peer).1) key =
                        trieFind l key from by
                      rw [trieFind_node, if_neg hex, if_pos hro,
                        if_neg (by rw [hkb]; simp)],
                    show trieFind (Trie.node p bits c l r) key =
                      trieFind l key from by
                        rw [trieFind_node, if_neg hex, if_pos hro,
                          if_neg (by rw [hkb]; simp)],
                    if_neg (fun h => by
                      rw [hkc h.1] at hkb
                      exact Bool.noConfusion hkb)]
                · rw [show trieFind (Trie.node p bits c l
                      (trieRemove r ip cidr peer).1) key =
                        trieFind (trieRemove r ip cidr peer).1 key from
                      by rw [trieFind_node, if_neg hex, if_pos hro,
                        if_pos hkb],
                    show trieFind (Trie.node p bits c l r) key =
                      trieFind r key from by
                        rw [trieFind_node, if_neg hex, if_pos hro,
                          if_pos hkb],
                    ihr]
              · rw [show trieFind (Trie.node p bits c l
                    (trieRemove r ip cidr peer).1) key = none from by
                      rw [trieFind_node, if_neg hex, if_neg hro],
                  show trieFind (Trie.node p bits c l r) key = none from
                    by rw [trieFind_node, if_neg hex, if_neg hro],
                  if_neg (fun h => Option.noConfusion h.2)]

theorem orFound_none_right (a : Option Nat) : orFound a none = a := by
  cases a <;> rfl

/-- Applying a valid operation sequence keeps both family tries
well-formed and in exact-prefix agreement with the spec-side maps. -/
theorem applyOps_spec : ∀ (ops : List AllowedIPsOp) (t : AllowedIPs)
    (m4 m6 : AbsMap), (∀ op ∈ ops, op.cidrOf ≤ op.ipOf.length) →
    WFc 32 [] t.ipv4 → WFc 128 [] t.ipv6 →
    (∀ key, trieFind t.ipv4 key = absFind m4 key) →
    (∀ key, trieFind t.ipv6 key = absFind m6 key) →
    (WFc 32 [] (applyOps t ops).ipv4 ∧
      WFc 128 [] (applyOps t ops).ipv6) ∧
    (∀ key, trieFind (applyOps t ops).ipv4 key =
      absFind (applyAbs 32 m4 ops) key) ∧
    (∀ key, trieFind (applyOps t ops).ipv6 key =
      absFind (applyAbs 128 m6 ops) key)
  | [], t, m4, m6, _, hw4, hw6, hf4, hf6 => ⟨⟨hw4, hw6⟩, hf4, hf6⟩
  | .ins ip cidr peer :: rest, t, m4, m6, hv, hw4, hw6, hf4, hf6 => by
    have hvi : cidr ≤ ip.length := hv _ (List.mem_cons_self _ _)
    have hv' : ∀ op ∈ rest, op.cidrOf ≤ op.ipOf.length :=
      fun op hop => hv op (List.mem_cons_of_mem _ hop)
    simp only [applyOps, applyAbs]
    by_cases h128 : ip.length = 128
    · rw [if_neg (by omega : ¬ip.length = 32), if_pos h128]
      have h4 : (t.Insert ip cidr peer).ipv4 = t.ipv4 := by
        simp [AllowedIPs.Insert, h128]
      have h6 : (t.Insert ip cidr peer).ipv6 =
          trieInsert t.ipv6 ip cidr peer := by
        simp [AllowedIPs.Insert, h128]
      refine applyOps_spec rest (t.Insert ip cidr peer) m4
        (absInsert m6 (ip.take cidr) peer) hv' ?_ ?_ ?_ ?_
      · rw [h4]
        exact hw4
      · rw [h6]
        exact trieInsert_WFc 128 t.ipv6 [] ip cidr peer hw6 h128
          (by omega) (Nat.zero_le _) rfl
      · intro key
        rw [h4]
        exact hf4 key
      · intro key
        rw [h6, trieInsert_find 128 t.ipv6 [] ip cidr peer key hw6 h128
          (by omega), absFind_insert, hf6 key]
    · by_cases h32 : ip.length = 32
      · rw [if_pos h32, if_neg (by omega : ¬ip.length = 128)]
        have h4 : (t.Insert ip cidr peer).ipv4 =
            trieInsert t.ipv4 ip cidr peer := by
          simp [AllowedIPs.Insert, h128, h32]
        have h6 : (t.Insert ip cidr peer).ipv6 = t.ipv6 := by
          simp [AllowedIPs.Insert, h128, h32]
        refine applyOps_spec rest (t.Insert ip cidr peer)
          (absInsert m4 (ip.take cidr) peer) m6 hv' ?_ ?_ ?_ ?_
        · rw [h4]
          exact trieInsert_WFc 32 t.ipv4 [] ip cidr peer hw4 h32
            (by omega) (Nat.zero_le _) rfl
        · rw [h6]
          exact hw6
        · intro key
          rw [h4, trieInsert_find 32 t.ipv4 [] ip cidr peer key hw4 h32
            (by omega), absFind_insert, hf4 key]
        · intro key
          rw [h6]
          exact hf6 key
      · rw [if_neg h32, if_neg h128]
        have ht : t.Insert ip cidr peer = t := by
          simp [AllowedIPs.Insert, h128, h32]
        rw [ht]
        exact applyOps_spec rest t m4 m6 hv' hw4 hw6 hf4 hf6
  | .rem ip cidr peer :: rest, t, m4, m6, hv, hw4, hw6, hf4, hf6 => by
    have hvi : cidr ≤ ip.length := hv _ (List.mem_cons_self _ _)
    have hv' : ∀ op ∈ rest, op.cidrOf ≤ op.ipOf.length :=
      fun op hop => hv op (List.mem_cons_of_mem _ hop)
    simp only [applyOps, applyAbs]
    by_cases h128 : ip.length = 128
    · rw [if_neg (by omega : ¬ip.length = 32), if_pos h128]
      have h4 : (t.Remove ip cidr peer).ipv4 = t.ipv4 := by
        simp [AllowedIPs.Remove, h128]
      have h6 : (t.Remove ip cidr peer).ipv6 =
          (trieRemove t.ipv6 ip cidr peer).1 := by
        simp [AllowedIPs.Remove, h128]
      refine applyOps_spec rest (t.Remove ip cidr peer) m4
        (absRemove m6 (ip.take cidr) peer) hv' ?_ ?_ ?_ ?_
      · rw [h4]
        exact hw4
      · rw [h6]
        exact trieRemove_WFc 128 t.ipv6 [] ip cidr peer hw6
      · intro key
        rw [h4]
        exact hf4 key
      · intro key
        rw [h6, trieRemove_find 128 t.ipv6 [] ip cidr peer key hw6 h128
          (by omega), absFind_remove, hf6 key]
    · by_cases h32 : ip.length = 32
      · rw [if_pos h32, if_neg (by omega : ¬ip.length = 128)]
        have h4 : (t.Remove ip cidr peer).ipv4 =
            (trieRemove t.ipv4 ip cidr peer).1 := by
          simp [AllowedIPs.Remove, h128, h32]
        have h6 : (t.Remove ip cidr peer).ipv6 = t.ipv6 := by
          simp [AllowedIPs.Remove, h128, h32]
        refine applyOps_spec rest (t.Remove ip cidr peer)
          (absRemove m4 (ip.take cidr) peer) m6 hv' ?_ ?_ ?_ ?_
        · rw [h4]
          exact trieRemove_WFc 32 t.ipv4 [] ip cidr peer hw4
        · rw [h6]
          exact hw6
        · intro key
          rw [h4, trieRemove_find 32 t.ipv4 [] ip cidr peer key hw4 h32
            (by omega), absFind_remove, hf4 key]
        · intro key
          rw [h6]
          exact hf6 key
      · rw [if_neg h32, if_neg h128]
        have ht : t.Remove ip cidr peer = t := by
          simp [AllowedIPs.Remove, h128, h32]
        rw [ht]
        exact applyOps_spec rest t m4 m6 hv' hw4 hw6 hf4 hf6

/-- C1: for every sequence of Insert and Remove operations applied to
the empty Allowed-IPs table (each operation carrying a prefix length
bounded by its address width) and every IPv4 or IPv6 address, `Lookup`
returns exactly the peer bound to the longest currently-present prefix
containing the address — where the currently-present bindings are those
of the spec-side map maintained by `absInsert`/`absRemove` — and `none`
when no present prefix contains it (`specLongestMatch` returns `none`
precisely then). -/
theorem allowedips_lookup_longest_match (ops : List AllowedIPsOp)
    (hv : ∀ op ∈ ops, op.cidrOf ≤ op.ipOf.length) (ip : List Bool)
    (hip : ip.length = 32 ∨ ip.length = 128) :
    AllowedIPs.Lookup (applyOps ⟨.empty, .empty⟩ ops) ip =
      specLongestMatch (applyAbs ip.length [] ops) ip := by
  obtain ⟨⟨hw4, hw6⟩, hf4, hf6⟩ := applyOps_spec ops ⟨.empty, .empty⟩
    [] [] hv trivial trivial (fun _ => rfl) (fun _ => rfl)
  unfold AllowedIPs.Lookup
  rcases hip with h32 | h128
  · rw [if_neg (by omega), if_pos h32,
      trieLookupAcc_spec 32 (by decide)
        (applyOps ⟨.empty, .empty⟩ ops).ipv4 [] ip none hw4 h32,
      orFound_none_right]
    unfold specLongestMatch
    rw [h32]
    exact longestMatchBy_congr _ _ ip 32
      (fun m _ => hf4 (ip.take m))
  · rw [if_pos h128,
      trieLookupAcc_spec 128 (by decide)
        (applyOps ⟨.empty, .empty⟩ ops).ipv6 [] ip none hw6 h128,
      orFound_none_right]
    unfold specLongestMatch
    rw [h128]
    exact longestMatchBy_congr _ _ ip 128
      (fun m _ => hf6 (ip.take m))

theorem allowedips_lookup_longest_match_witness :
    (∀ op ∈ sampleOps, op.cidrOf ≤ op.ipOf.length) ∧
    AllowedIPs.Lookup (applyOps ⟨.empty, .empty⟩ sampleOps)
        (bytesToBits [10, 1, 2, 3]) =
      specLongestMatch
        (applyAbs (bytesToBits [10, 1, 2, 3]).length [] sampleOps)
        (bytesToBits [10, 1, 2, 3]) :=
  ⟨by decide, allowedips_lookup_longest_match sampleOps (by decide)
    (bytesToBits [10, 1, 2, 3]) (by decide)⟩

end WireGuardGo
